import Mathlib

/-!
Verification of the BMAD MCP server core: the checklist quality-gate engine
(`checklists/loader.py`) and the artifact store (`utils/state_manager.py`).

Strings are modelled as `List Char`; the Python string operations the code
uses (`strip`, `startswith`, `endswith`, `in`, `split`, `replace`, `count`,
`lower`) are embedded below with their exact Python semantics.
-/

namespace BmadMcp

/-- Python strings, modelled as lists of characters. -/
abbrev Str := List Char

/-- Coerce a Lean string literal to the model's string type. -/
def str (s : String) : Str := s.data

/-- Characters treated as whitespace by Python's `str.strip()`. -/
def isPySpace (c : Char) : Bool :=
  c = ' ' || c = '\t' || c = '\n' || c = '\r' || c = Char.ofNat 11 || c = Char.ofNat 12

/-- Python `s.strip()`: remove leading and trailing whitespace. -/
def pyStrip (s : Str) : Str :=
  ((s.dropWhile isPySpace).reverse.dropWhile isPySpace).reverse

/-- Python `s.startswith(p)`: the first `p.length` characters of `s` are `p`. -/
def isPre (p s : Str) : Bool := p == s.take p.length

/-- Python `s.endswith(p)`. -/
def isSuf (p s : Str) : Bool := isPre p.reverse s.reverse

/-- Python `p in s`: `p` occurs as a contiguous substring of `s`. -/
def hasSub (pat : Str) : Str → Bool
  | [] => pat.isEmpty
  | x :: xs => isPre pat (x :: xs) || hasSub pat xs

/-- Python `any(p in s for p in pats)`. -/
def containsAny (s : Str) (pats : List Str) : Bool :=
  pats.any (fun p => hasSub p s)

/-- Python `s.lower()`. -/
def lower (s : Str) : Str := s.map Char.toLower

/-- Python `s.split(c)` for a single-character separator: every occurrence
splits, empty fields are kept. -/
def splitOnChar (c : Char) : Str → List Str
  | [] => [[]]
  | x :: xs =>
    if x = c then [] :: splitOnChar c xs
    else
      match splitOnChar c xs with
      | [] => [[x]]
      | h :: t => (x :: h) :: t

/-- Prepend a character to the first field of a split result. -/
def consHead (x : Char) : List Str → List Str
  | [] => [[x]]
  | h :: t => (x :: h) :: t

/-- Recursion core of `splitSub`, structurally recursive on a fuel bound
dominating the string length (so that the kernel can evaluate it). -/
def splitSubGo (pat : Str) : Nat → Str → List Str
  | _, [] => [[]]
  | 0, x :: xs => [x :: xs]
  | Nat.succ fuel, x :: xs =>
    if !pat.isEmpty && isPre pat (x :: xs) then
      [] :: splitSubGo pat fuel (xs.drop (pat.length - 1))
    else
      consHead x (splitSubGo pat fuel xs)

/-- Python `s.split(pat)` for a non-empty multi-character separator:
leftmost non-overlapping occurrences split the string. -/
def splitSub (pat s : Str) : List Str := splitSubGo pat s.length s

/-- Interleave a separator between fields (inverse of `splitSub`). -/
def joinWith (sep : Str) : List Str → Str
  | [] => []
  | [l] => l
  | l :: l' :: ls => l ++ sep ++ joinWith sep (l' :: ls)

/-- Python `s.split(pat, 2)`: at most two splits, the remainder is kept whole. -/
def pySplit2 (pat : Str) (s : Str) : List Str :=
  match splitSub pat s with
  | p0 :: p1 :: p2 :: rest => [p0, p1, joinWith pat (p2 :: rest)]
  | parts => parts

/-- Recursion core of `delSub`, structurally recursive on a fuel bound. -/
def delSubGo (pat : Str) : Nat → Str → Str
  | _, [] => []
  | 0, x :: xs => x :: xs
  | Nat.succ fuel, x :: xs =>
    if !pat.isEmpty && isPre pat (x :: xs) then
      delSubGo pat fuel (xs.drop (pat.length - 1))
    else
      x :: delSubGo pat fuel xs

/-- Python `s.replace(pat, '')` for a non-empty `pat`: delete every leftmost
non-overlapping occurrence. -/
def delSub (pat s : Str) : Str := delSubGo pat s.length s

/-! ## Artifact store (`utils/state_manager.py`)

Project metadata and YAML frontmatter maps are modelled as ordered
association lists, matching Python's insertion-ordered `dict`. -/

/-- An insertion-ordered string-to-string map (a Python `dict`). -/
abbrev Meta := List (Str × Str)

/-- Python `k in d` for a dict. -/
def containsKey (m : Meta) (k : Str) : Bool := m.any (fun kv => kv.1 == k)

/-- Python `d.get(k)` / `d[k]`: value of the first entry with key `k`. -/
def lookupKey : Meta → Str → Option Str
  | [], _ => none
  | (k', v) :: rest, k => if k' == k then some v else lookupKey rest k

/-- Python `d[k] = v`: update the entry in place if the key exists,
otherwise append it (insertion order is preserved). -/
def setKey : Meta → Str → Str → Meta
  | [], k, v => [(k, v)]
  | (k', v') :: rest, k, v =>
    if k' == k then (k, v) :: rest else (k', v') :: setKey rest k v

/-- `StateManager.update_project_phase`: sets `current_phase`, stamps
`updated_at`, and assigns `phase_<phase>_started_at` unconditionally.
The source calls `datetime.now()` separately for the two timestamps;
a single `now` parameter stands for the call's clock reading. -/
def update_project_phase (meta : Meta) (phase now : Str) : Meta :=
  setKey (setKey (setKey meta (str "current_phase") phase) (str "updated_at") now)
    (str "phase_" ++ phase ++ str "_started_at") now

/-- The key `phase_<phase>_started_at` written by `update_project_phase`. -/
def phaseStartKey (phase : Str) : Str := str "phase_" ++ phase ++ str "_started_at"

/-- `save_artifact`'s metadata stamping: add `created_at` only when absent,
always refresh `updated_at`. -/
def stampMeta (metadata : Meta) (now : Str) : Meta :=
  let m1 := if containsKey metadata (str "created_at") then metadata
            else setKey metadata (str "created_at") now
  setKey m1 (str "updated_at") now

/-- `yaml.dump(metadata, default_flow_style=False, sort_keys=False)` for a
flat dict of plain scalar strings: one `key: value` line per entry, in
insertion order. -/
def dumpMeta : Meta → Str
  | [] => []
  | (k, v) :: rest => k ++ str ": " ++ v ++ ['\n'] ++ dumpMeta rest

/-- Parse one `key: value` line of a frontmatter block (the first
`": "` separates key from value, as YAML does for plain scalars). -/
def parseMetaLine (l : Str) : Option (Str × Str) :=
  match splitSub (str ": ") l with
  | k :: v :: rest => some (k, joinWith (str ": ") (v :: rest))
  | _ => none

/-- `yaml.safe_load` of a frontmatter block of plain `key: value` lines. -/
def parseMeta (s : Str) : Meta :=
  (splitOnChar '\n' s).filterMap parseMetaLine

/-- `StateManager.save_artifact`, at the level of the file content written:
markdown paths with a non-empty metadata dict get a stamped YAML
frontmatter block `---\n<yaml>---\n\n` before the content; every other
call writes the raw content. (`metadata = []` covers both Python's
`None` and `{}`, which are equally falsy in the source's `if metadata`.) -/
def save_artifact (path_in_bmad content : Str) (metadata : Meta) (now : Str) : Str :=
  if !metadata.isEmpty && isSuf (str ".md") path_in_bmad then
    str "---\n" ++ dumpMeta (stampMeta metadata now) ++ str "---\n\n" ++ content
  else content

/-- `StateManager.load_artifact`, as a pure function of the path and the raw
file content: markdown files starting with `---` are split at the first two
`---` occurrences (`raw.split('---', 2)`); the frontmatter is parsed and the
remainder is `strip()`ped. -/
def load_artifact (path_in_bmad raw : Str) : Str × Meta :=
  if isSuf (str ".md") path_in_bmad && isPre (str "---") raw then
    match pySplit2 (str "---") raw with
    | _ :: p1 :: p2 :: _ => (pyStrip p2, parseMeta p1)
    | _ => (raw, [])
  else (raw, [])

/-! ### Artifact counters (`_update_artifact_count`, `delete_artifact`) -/

/-- The category keys of `artifact_count` as initialized by
`_init_project_meta`. -/
def artifactCategories : List Str :=
  [str "prd", str "stories", str "architecture", str "decisions",
   str "ideation", str "checklists"]

/-- The top-level category of a path:
`path.split("/")[0] if "/" in path else "root"`. -/
def topCategory (p : Str) : Str :=
  if p.contains '/' then
    match splitOnChar '/' p with
    | h :: _ => h
    | [] => str "root"
  else str "root"

/-- `_update_artifact_count`: `max(0, count + (1 if increment else -1))`,
applied only when the category is a key of `artifact_count` (Nat
subtraction models Python's `max(0, c - 1)`). -/
def bumpCount (p : Str) (increment : Bool) (c : Nat) : Nat :=
  if artifactCategories.contains (topCategory p) then
    if increment then c + 1 else c - 1
  else c

/-- A store mutation relevant to the counter invariant. -/
inductive StoreOp where
  | save (p : Str)
  | delete (p : Str)
deriving DecidableEq

/-- The store state the counter invariant depends on: the set of existing
artifact files and one category counter. -/
structure StoreState where
  files : List Str
  count : Nat
deriving DecidableEq

/-- Run an interleaving of `save_artifact`/`delete_artifact` calls against
the file set and a single category counter. A save writes the file
(idempotently on the file set) and always increments the counter; a delete
requires the file to exist (otherwise the run is not a sequence of
*successful* deletes and yields `none`), removes it and decrements. -/
def runOk : StoreState → List StoreOp → Option StoreState
  | st, [] => some st
  | st, StoreOp.save p :: ops =>
      runOk ⟨if st.files.contains p then st.files else st.files ++ [p],
             bumpCount p true st.count⟩ ops
  | st, StoreOp.delete p :: ops =>
      if st.files.contains p then
        runOk ⟨st.files.erase p, bumpCount p false st.count⟩ ops
      else none

/-- Number of save operations in a trace. -/
def countSaves (ops : List StoreOp) : Nat :=
  ops.countP (fun o => match o with | StoreOp.save _ => true | _ => false)

/-- Number of delete operations in a trace. -/
def countDeletes (ops : List StoreOp) : Nat :=
  ops.countP (fun o => match o with | StoreOp.delete _ => true | _ => false)

/-- The path an operation touches. -/
def StoreOp.path : StoreOp → Str
  | StoreOp.save p => p
  | StoreOp.delete p => p

/-! ## Checklist engine (`checklists/loader.py`) -/

/-- `ValidationMode`: the three accepted strictness modes. -/
inductive ValidationMode where
  | strict
  | standard
  | lenient
deriving DecidableEq

/-- `ValidationMode(mode)`: succeeds exactly on the three enum values,
raises `ValueError` (here: `none`) otherwise. -/
def modeOfString (mode : Str) : Option ValidationMode :=
  if mode == str "strict" then some ValidationMode.strict
  else if mode == str "standard" then some ValidationMode.standard
  else if mode == str "lenient" then some ValidationMode.lenient
  else none

/-- `ChecklistItem` model. -/
structure ChecklistItem where
  text : Str
  required : Bool
  category : Str
deriving DecidableEq

/-- `ChecklistSection` model. -/
structure ChecklistSection where
  title : Str
  description : Str
  items : List ChecklistItem
deriving DecidableEq

/-- `Checklist` model. -/
structure Checklist where
  name : Str
  sections : List ChecklistSection
  total_items : Nat
deriving DecidableEq

/-- `ChecklistItemResult` model. -/
structure ChecklistItemResult where
  text : Str
  status : Str
  recommendation : Str
deriving DecidableEq

/-- `ChecklistSectionResult` model. -/
structure ChecklistSectionResult where
  title : Str
  total : Nat
  passed : Nat
  failed : Nat
  na : Nat
  items : List ChecklistItemResult
deriving DecidableEq

/-- One entry of `failed_items_details`. -/
structure FailedDetail where
  category : Str
  description : Str
  recommendation : Str
deriving DecidableEq

/-- `ChecklistExecutionResult` model. -/
structure ChecklistExecutionResult where
  checklist_name : Str
  total_items : Nat
  passed_items : Nat
  failed_items : Nat
  na_items : Nat
  section_results : List ChecklistSectionResult
  failed_items_details : List FailedDetail
  recommendations : List Str
deriving DecidableEq

/-! ### Parser (`_parse_checklist_content`) -/

/-- The parser's loop state: the open section (if any), the finished
sections, and the running item total. -/
structure ParseState where
  cur : Option ChecklistSection
  secs : List ChecklistSection
  total : Nat
deriving DecidableEq

/-- One iteration of `_parse_checklist_content`'s line loop. The line is
stripped; `##` (but not `###`) opens a new section, `- [ ]` appends an item
to the open section, and any other non-empty line not starting with `#` or
`-` extends the open section's description. -/
def parseStep (st : ParseState) (rawLine : Str) : ParseState :=
  let line := pyStrip rawLine
  if isPre (str "##") line && !isPre (str "###") line then
    { cur := some ⟨pyStrip (line.filter (fun c => c ≠ '#')), [], []⟩,
      secs := st.secs ++ st.cur.toList,
      total := st.total }
  else if isPre (str "- [ ]") line then
    match st.cur with
    | some s =>
        { st with
          cur := some { s with
            items := s.items ++ [⟨pyStrip (delSub (str "- [ ]") line), true, s.title⟩] },
          total := st.total + 1 }
    | none => st
  else if st.cur.isSome && !line.isEmpty
          && !isPre (str "#") line && !isPre (str "-") line then
    match st.cur with
    | some s =>
        { st with
          cur := some { s with
            description :=
              if s.description.isEmpty then line
              else s.description ++ str " " ++ line } }
    | none => st
  else st

/-- `_parse_checklist_content`: fold the line loop over the lines of the
document, then append the final open section. -/
def _parse_checklist_content (content checklist_name : Str) : Checklist :=
  let st := (splitOnChar '\n' content).foldl parseStep ⟨none, [], 0⟩
  ⟨checklist_name, st.secs ++ st.cur.toList, st.total⟩

/-! ### Rule evaluator (`_evaluate_checklist_item`) -/

/-- The `evaluation_rules` table: keyword paired with the value of its
predicate over the document, in dict insertion order. -/
def evaluation_rules (document_content : Str) : List (Str × Bool) :=
  let doc_lower := lower document_content
  [ (str "clear",
     containsAny doc_lower [str "clear", str "clearly", str "specific", str "detailed"]),
    (str "goal", hasSub (str "goal") doc_lower),
    (str "requirement",
     containsAny doc_lower [str "requirement", str "must", str "should", str "shall"]),
    (str "user", hasSub (str "user") doc_lower),
    (str "story", hasSub (str "story") doc_lower),
    (str "acceptance",
     hasSub (str "acceptance") doc_lower || hasSub (str "criteria") doc_lower),
    (str "epic", hasSub (str "epic") doc_lower),
    (str "architecture", hasSub (str "architecture") doc_lower),
    (str "technical",
     containsAny doc_lower [str "technical", str "technology", str "tech"]),
    (str "testing",
     containsAny doc_lower [str "test", str "testing", str "quality"]),
    (str "security", hasSub (str "security") doc_lower),
    (str "section", decide (3 ≤ doc_lower.count '#')),
    (str "list", decide (3 ≤ doc_lower.count '-')),
    (str "table", hasSub (str "|") doc_lower),
    (str "comprehensive", decide (2000 < document_content.length)),
    (str "detailed", decide (1000 < document_content.length)),
    (str "brief", decide (document_content.length < 1000)) ]

/-- The item's not-applicable test: an optionality marker in the item text
and no domain marker in the document. -/
def _is_na (item : ChecklistItem) (document_content : Str) : Bool :=
  containsAny (lower item.text) [str "if applicable", str "if needed", str "optional"]
  && !containsAny (lower document_content)
       [str "ui", str "frontend", str "api", str "database"]

/-- The rules whose keyword occurs in the (lower-cased) item text. -/
def _relevant_rules (item : ChecklistItem) (document_content : Str) : List (Str × Bool) :=
  (evaluation_rules document_content).filter (fun r => hasSub r.1 (lower item.text))

/-- The status computation of `_evaluate_checklist_item`.
Python compares `pass_count >= total_rules * 0.7` (resp. `* 0.5`) in double
precision; for the rule counts reachable here (`total_rules ≤ 17`) that
comparison coincides with the exact rational one, embedded as
`7 * total ≤ 10 * pass` (resp. `total ≤ 2 * pass`). -/
def _item_status (item : ChecklistItem) (document_content : Str)
    (mode : ValidationMode) : Str :=
  if _is_na item document_content then str "na"
  else if (_relevant_rules item document_content).isEmpty then
    if 100 < document_content.length then str "pass" else str "fail"
  else
    match mode with
    | ValidationMode.strict =>
        if (_relevant_rules item document_content).countP (fun r => r.2)
            = (_relevant_rules item document_content).length
        then str "pass" else str "fail"
    | ValidationMode.standard =>
        if 7 * (_relevant_rules item document_content).length
            ≤ 10 * (_relevant_rules item document_content).countP (fun r => r.2)
        then str "pass" else str "fail"
    | ValidationMode.lenient =>
        if (_relevant_rules item document_content).length
            ≤ 2 * (_relevant_rules item document_content).countP (fun r => r.2)
        then str "pass" else str "fail"

/-- `_evaluate_checklist_item`: status plus the keyword-matched
recommendation on failure. The `context` argument is accepted and ignored,
as in the source. -/
def _evaluate_checklist_item (item : ChecklistItem) (document_content : Str)
    (context : Meta) (mode : ValidationMode) : ChecklistItemResult :=
  let item_text := lower item.text
  let status := _item_status item document_content mode
  let recommendation :=
    if status == str "fail" then
      if hasSub (str "clear") item_text then
        str "Add more specific and detailed explanations"
      else if hasSub (str "goal") item_text then
        str "Define clear, measurable goals"
      else if hasSub (str "requirement") item_text then
        str "Add explicit requirements with clear language"
      else if hasSub (str "testing") item_text then
        str "Include testing strategy and requirements"
      else str "Review and enhance this aspect of the document"
    else []
  ⟨item.text, status, recommendation⟩

/-! ### Executor (`execute_checklist`) and recommendations -/

/-- Per-section tallies of `execute_checklist`'s inner loop. -/
def _section_result (s : ChecklistSection) (document_content : Str)
    (context : Meta) (mode : ValidationMode) : ChecklistSectionResult :=
  let rs := s.items.map (fun it => _evaluate_checklist_item it document_content context mode)
  ⟨s.title, s.items.length,
   rs.countP (fun r => r.status == str "pass"),
   rs.countP (fun r => r.status == str "fail"),
   rs.countP (fun r => !(r.status == str "pass") && !(r.status == str "fail")),
   rs⟩

/-- The `failed_items_details` entries a section contributes, in item
order: the section title as category, the item text, the recommendation. -/
def _section_details (s : ChecklistSection) (document_content : Str)
    (context : Meta) (mode : ValidationMode) : List FailedDetail :=
  (s.items.map (fun it => _evaluate_checklist_item it document_content context mode)).filterMap
    (fun r => if r.status == str "fail" then some ⟨s.title, r.text, r.recommendation⟩ else none)

/-- `failed_categories` accumulation: `d[c] = d.get(c, 0) + 1` on a Python
dict preserves the position of an existing key and appends a new one. -/
def bumpCategory : List (Str × Nat) → Str → List (Str × Nat)
  | [], c => [(c, 1)]
  | (c', k) :: rest, c =>
    if c' == c then (c', k + 1) :: rest else (c', k) :: bumpCategory rest c

/-- The `failed_categories` dict built from `failed_items_details`. -/
def buildCategories (details : List FailedDetail) : List (Str × Nat) :=
  details.foldl (fun acc d => bumpCategory acc d.category) []

/-- Python `max(items, key=snd)`: the first element with maximal second
component (`max` only replaces its candidate on a strictly greater key). -/
def pyMaxSnd : List (Str × Nat) → Option (Str × Nat)
  | [] => none
  | x :: xs => some (xs.foldl (fun best y => if best.2 < y.2 then y else best) x)

/-- Index of the first occurrence of `c` in a list of category names
(the position of a category's first failed item, used to state the
tie-breaking behaviour of `max` over the insertion-ordered dict). -/
def firstIndex (c : Str) : List Str → Nat
  | [] => 0
  | x :: xs => if x == c then 0 else firstIndex c xs + 1

/-- Insertion-ordered deduplication: the key order of a Python dict built
by repeated `d[c] = d.get(c, 0) + 1`. -/
def firstSeen (l : List Str) : List Str :=
  l.foldl (fun acc x => if acc.contains x then acc else acc ++ [x]) []

/-- Specification of the `failed_categories` dict: first-seen category
order, each paired with its number of failed items. -/
def catCounts (details : List FailedDetail) : List (Str × Nat) :=
  (firstSeen (details.map (fun d => d.category))).map
    (fun c => (c, details.countP (fun d => d.category == c)))

/-- The targeted message naming the worst section. -/
def targetMsg (c : Str) (k : Nat) : Str :=
  str "Pay special attention to " ++ [Char.ofNat 39] ++ c ++ [Char.ofNat 39]
  ++ str " section - " ++ (Nat.repr k).data ++ str " items need improvement"

/-- The pass-rate-threshold messages of `_generate_recommendations`.
Python computes `passed / total * 100` in double precision with `0` for an
empty checklist; the comparisons with 70 and 85 are embedded exactly as
rational comparisons. -/
def _base_recommendations (result : ChecklistExecutionResult) : List Str :=
  if result.total_items = 0
      || 100 * result.passed_items < 70 * result.total_items then
    [str "Document requires significant improvement before proceeding to next phase",
     str "Focus on addressing failed items systematically"]
  else if 100 * result.passed_items < 85 * result.total_items then
    [str "Document is good but could benefit from addressing remaining failed items"]
  else []

/-- `_generate_recommendations`: threshold messages, then — when any item
failed — one targeted message for the category with the most failures. -/
def _generate_recommendations (result : ChecklistExecutionResult)
    (mode : ValidationMode) : List Str :=
  match pyMaxSnd (buildCategories result.failed_items_details) with
  | some ck => _base_recommendations result ++ [targetMsg ck.1 ck.2]
  | none => _base_recommendations result

/-- The body of `execute_checklist` after mode validation. -/
def execute_core (checklist : Checklist) (document_content : Str)
    (context : Meta) (mode : ValidationMode) : ChecklistExecutionResult :=
  let secResults := checklist.sections.map
    (fun s => _section_result s document_content context mode)
  let details := checklist.sections.flatMap
    (fun s => _section_details s document_content context mode)
  let r0 : ChecklistExecutionResult :=
    ⟨checklist.name, checklist.total_items,
     (secResults.map (fun sr => sr.passed)).sum,
     (secResults.map (fun sr => sr.failed)).sum,
     (secResults.map (fun sr => sr.na)).sum,
     secResults, details, []⟩
  { r0 with recommendations := _generate_recommendations r0 mode }

/-- `execute_checklist`: validates the mode string (raising, i.e. `none`,
on anything but strict/standard/lenient) and runs the executor. -/
def execute_checklist (checklist : Checklist) (document_content : Str)
    (context : Meta) (mode : Str) : Option ChecklistExecutionResult :=
  (modeOfString mode).map (execute_core checklist document_content context)

/-! ## String-layer lemmas -/

theorem splitSubGo_congr (pat : Str) :
    ∀ f1 f2 (s : Str), s.length ≤ f1 → s.length ≤ f2 →
      splitSubGo pat f1 s = splitSubGo pat f2 s := by
  intro f1
  induction f1 with
  | zero =>
    intro f2 s h1 _
    have hnil : s = [] := by
      cases s with
      | nil => rfl
      | cons x xs => simp at h1
    subst hnil
    cases f2 <;> rfl
  | succ f ih =>
    intro f2 s h1 h2
    cases s with
    | nil => cases f2 <;> rfl
    | cons x xs =>
      cases f2 with
      | zero => simp at h2
      | succ g =>
        simp only [splitSubGo]
        have hx : xs.length ≤ f := by
          simp only [List.length_cons] at h1
          omega
        have hg : xs.length ≤ g := by
          simp only [List.length_cons] at h2
          omega
        have hd1 : (xs.drop (pat.length - 1)).length ≤ f := by
          simp only [List.length_drop]
          omega
        have hd2 : (xs.drop (pat.length - 1)).length ≤ g := by
          simp only [List.length_drop]
          omega
        by_cases hc : (!pat.isEmpty && isPre pat (x :: xs)) = true
        · rw [if_pos hc, if_pos hc, ih g _ hd1 hd2]
        · rw [if_neg hc, if_neg hc, ih g xs hx hg]

theorem splitSub_cons (pat : Str) (x : Char) (xs : Str) :
    splitSub pat (x :: xs) =
      if !pat.isEmpty && isPre pat (x :: xs) then
        [] :: splitSub pat (xs.drop (pat.length - 1))
      else consHead x (splitSub pat xs) := by
  show splitSubGo pat (xs.length + 1) (x :: xs) = _
  simp only [splitSubGo]
  by_cases hc : (!pat.isEmpty && isPre pat (x :: xs)) = true
  · rw [if_pos hc, if_pos hc]
    rw [splitSubGo_congr pat xs.length (xs.drop (pat.length - 1)).length _
      (by simp only [List.length_drop]; omega) (Nat.le_refl _)]
    rfl
  · rw [if_neg hc, if_neg hc]
    rfl

theorem isPre_iff {p s : Str} : isPre p s = true ↔ p = s.take p.length := by
  simp [isPre]

theorem isPre_append (p b : Str) : isPre p (p ++ b) = true := by
  simp [isPre, List.take_left]

theorem isPre_cons {c x : Char} {p t : Str} :
    isPre (c :: p) (x :: t) = true ↔ (c = x ∧ isPre p t = true) := by
  simp only [isPre, List.length_cons, List.take_succ_cons, beq_iff_eq, List.cons.injEq]

theorem isPre_length_le {p s : Str} (h : isPre p s = true) : p.length ≤ s.length := by
  rw [isPre_iff] at h
  have := congrArg List.length h
  simp only [List.length_take] at this
  omega

theorem isPre_restrict {p a b : Str} (h : isPre p (a ++ b) = true)
    (hl : p.length ≤ a.length) : isPre p a = true := by
  rw [isPre_iff] at h ⊢
  rw [List.take_append_of_le_length hl] at h
  exact h

theorem hasSub_cons (pat : Str) (x : Char) (xs : Str) :
    hasSub pat (x :: xs) = (isPre pat (x :: xs) || hasSub pat xs) := rfl

theorem hasSub_of_isPre {pat s : Str} (h : isPre pat s = true) : hasSub pat s = true := by
  cases s with
  | nil =>
    have := isPre_length_le h
    simp only [List.length_nil, Nat.le_zero, List.length_eq_zero] at this
    simp [hasSub, this]
  | cons x xs => simp [hasSub_cons, h]

theorem splitSub_ne_nil (pat s : Str) : splitSub pat s ≠ [] := by
  cases s with
  | nil => simp [splitSub, splitSubGo]
  | cons x xs =>
    rw [splitSub_cons]
    split
    · simp
    · cases splitSub pat xs <;> simp [consHead]

theorem join_split (pat : Str) : ∀ s : Str, joinWith pat (splitSub pat s) = s := by
  have main : ∀ n (s : Str), s.length ≤ n → joinWith pat (splitSub pat s) = s := by
    intro n
    induction n with
    | zero =>
      intro s hs
      have hnil : s = [] := by
        cases s with
        | nil => rfl
        | cons x xs => simp at hs
      subst hnil
      rfl
    | succ n ih =>
      intro s hs
      match s with
      | [] => rfl
      | x :: xs =>
        rw [splitSub_cons]
        by_cases hc : (!pat.isEmpty && isPre pat (x :: xs)) = true
        · rw [if_pos hc]
          simp only [Bool.and_eq_true, Bool.not_eq_true'] at hc
          obtain ⟨hpne, hpre⟩ := hc
          have hpne' : pat ≠ [] := by
            cases pat with
            | nil => simp [List.isEmpty] at hpne
            | cons _ _ => simp
          have hlen : (xs.drop (pat.length - 1)).length ≤ n := by
            simp only [List.length_drop]
            simp only [List.length_cons] at hs
            omega
          cases hsp : splitSub pat (xs.drop (pat.length - 1)) with
          | nil => exact absurd hsp (splitSub_ne_nil pat _)
          | cons h t =>
            have hrec := ih _ hlen
            rw [hsp] at hrec
            simp only [joinWith, List.nil_append]
            rw [hrec]
            rw [isPre_iff] at hpre
            obtain ⟨k, hk⟩ : ∃ k, pat.length = k + 1 := by
              cases hpl : pat.length with
              | zero => exact absurd (List.length_eq_zero.mp hpl) hpne'
              | succ k => exact ⟨k, rfl⟩
            have hsplit := List.take_append_drop pat.length (x :: xs)
            rw [hk] at hsplit
            simp only [List.drop_succ_cons] at hsplit
            calc pat ++ xs.drop (pat.length - 1)
                = (x :: xs).take pat.length ++ xs.drop (pat.length - 1) := by rw [← hpre]
              _ = (x :: xs).take (k + 1) ++ xs.drop k := by rw [hk]; norm_num
              _ = x :: xs := hsplit
        · rw [if_neg hc]
          have hxs := ih xs (by simp only [List.length_cons] at hs; omega)
          cases hsp : splitSub pat xs with
          | nil => exact absurd hsp (splitSub_ne_nil pat xs)
          | cons h t =>
            rw [hsp] at hxs
            cases t with
            | nil =>
              simp only [consHead, joinWith]
              simp only [joinWith] at hxs
              rw [hxs]
            | cons t0 ts =>
              simp only [consHead, joinWith]
              simp only [joinWith] at hxs
              rw [List.cons_append, List.cons_append, hxs]
  intro s
  exact main s.length s le_rfl

theorem splitSub_cons_pat {pat : Str} (hne : pat ≠ []) (b : Str) :
    splitSub pat (pat ++ b) = [] :: splitSub pat b := by
  cases pat with
  | nil => exact absurd rfl hne
  | cons p pt =>
    rw [List.cons_append, splitSub_cons]
    have hpre : isPre (p :: pt) (p :: (pt ++ b)) = true := by
      rw [← List.cons_append]
      exact isPre_append _ _
    rw [if_pos (by simp [hpre])]
    simp only [List.length_cons, Nat.add_sub_cancel]
    rw [List.drop_left]

theorem not_hasSub_splitSub {pat : Str} :
    ∀ {s : Str}, hasSub pat s = false → splitSub pat s = [s] := by
  intro s
  induction s with
  | nil => intro _; rfl
  | cons x xs ih =>
    intro h
    rw [hasSub_cons, Bool.or_eq_false_iff] at h
    obtain ⟨h1, h2⟩ := h
    rw [splitSub_cons, if_neg (by simp [h1]), ih h2]
    rfl

theorem splitSub_append {pat : Str} (hne : pat ≠ []) :
    ∀ (a b : Str), hasSub pat (a ++ pat.dropLast) = false →
      splitSub pat (a ++ pat ++ b) = a :: splitSub pat b := by
  intro a
  induction a with
  | nil =>
    intro b _
    simp only [List.nil_append]
    exact splitSub_cons_pat hne b
  | cons x a' ih =>
    intro b hocc
    have hocc' : hasSub pat (a' ++ pat.dropLast) = false := by
      rw [List.cons_append, hasSub_cons, Bool.or_eq_false_iff] at hocc
      exact hocc.2
    have hnpre : isPre pat (x :: ((a' ++ pat) ++ b)) = true → False := by
      intro hpre
      have hone : 1 ≤ pat.length := by
        cases pat with
        | nil => exact absurd rfl hne
        | cons _ _ => simp
      have hlen : pat.length ≤ ((x :: a') ++ pat.dropLast).length := by
        simp only [List.length_append, List.length_cons, List.length_dropLast]
        omega
      have e1 : x :: ((a' ++ pat) ++ b) = ((x :: a') ++ pat) ++ b := by simp
      have e2 : ((x :: a') ++ pat) ++ b
          = ((x :: a') ++ pat.dropLast) ++ ([pat.getLast hne] ++ b) := by
        conv_lhs => rw [← List.dropLast_append_getLast hne]
        simp [List.append_assoc]
      have hpre2 : isPre pat (((x :: a') ++ pat.dropLast) ++ ([pat.getLast hne] ++ b)) = true := by
        rw [← e2, ← e1]
        exact hpre
      have hpre3 : isPre pat ((x :: a') ++ pat.dropLast) = true :=
        isPre_restrict hpre2 hlen
      have := hasSub_of_isPre hpre3
      rw [List.cons_append] at this
      rw [List.cons_append] at hocc
      rw [this] at hocc
      exact Bool.noConfusion hocc
    have estep : (x :: a') ++ pat ++ b = x :: ((a' ++ pat) ++ b) := by simp
    rw [estep, splitSub_cons]
    rw [if_neg]
    · have ihb := ih b hocc'
      rw [show a' ++ pat ++ b = (a' ++ pat) ++ b from rfl] at ihb
      rw [ihb]
      rfl
    · intro hcond
      rw [Bool.and_eq_true] at hcond
      exact hnpre hcond.2

theorem hasSub_append_cases (pat : Str) :
    ∀ (a b : Str), hasSub pat (a ++ b) = true →
      hasSub pat a = true ∨ hasSub pat b = true ∨
      ∃ a₁ a₂, a = a₁ ++ a₂ ∧ 0 < a₂.length ∧ a₂.length < pat.length ∧
        isPre pat (a₂ ++ b) = true := by
  intro a
  induction a with
  | nil =>
    intro b h
    right; left
    simpa using h
  | cons x a' ih =>
    intro b h
    rw [List.cons_append, hasSub_cons, Bool.or_eq_true] at h
    rcases h with hpre | htail
    · by_cases hl : pat.length ≤ (x :: a').length
      · left
        have hp2 : isPre pat ((x :: a') ++ b) = true := by
          rw [List.cons_append]
          exact hpre
        exact hasSub_of_isPre (isPre_restrict hp2 hl)
      · right; right
        refine ⟨[], x :: a', by simp, by simp, by omega, ?_⟩
        simpa using hpre
    · rcases ih b htail with h1 | h2 | ⟨a₁, a₂, heq, h01, h02, h03⟩
      · left
        rw [hasSub_cons, h1, Bool.or_true]
      · right; left; exact h2
      · right; right
        exact ⟨x :: a₁, a₂, by rw [heq, List.cons_append], h01, h02, h03⟩

/-! ## Frontmatter well-formedness and round-trip lemmas

The round-trip theorem for `save_artifact`/`load_artifact` holds for
metadata maps of plain scalar strings: keys of identifier characters,
values free of newlines, of `---` and of the `": "` separator (this is the
regime in which `yaml.dump`'s output is `key: value` lines and
`yaml.safe_load` inverts it; the store's own stamps satisfy it). -/

/-- A key `yaml.dump` writes verbatim: non-empty, identifier characters. -/
def goodKey (s : Str) : Bool :=
  !s.isEmpty && s.all (fun c => c.isAlphanum || c = '_')

/-- A value `yaml.dump` writes verbatim and whose line survives the
`'---'` split and the `": "` key separator. -/
def goodVal (s : Str) : Bool :=
  s.all (fun c => c ≠ '\n') && !hasSub (str "---") s && !hasSub (str ": ") s

/-- A metadata map of plain scalar strings. -/
def goodMeta (m : Meta) : Bool :=
  m.all (fun kv => goodKey kv.1 && goodVal kv.2)

/-- Last character of a string, if any. -/
def lastc (s : Str) : Option Char := s.reverse.head?

theorem lastc_append (a : Str) {b : Str} (hb : b ≠ []) : lastc (a ++ b) = lastc b := by
  unfold lastc
  rw [List.reverse_append]
  have : b.reverse ≠ [] := by simpa [List.reverse_eq_nil_iff] using hb
  cases hbr : b.reverse with
  | nil => exact absurd hbr this
  | cons y ys => simp

theorem lastc_mem {s : Str} {c : Char} (h : lastc s = some c) : c ∈ s := by
  unfold lastc at h
  cases hr : s.reverse with
  | nil => rw [hr] at h; exact Option.noConfusion h
  | cons y ys =>
    rw [hr] at h
    have hy : c = y := by simpa using h.symm
    have : c ∈ s.reverse := by rw [hr, hy]; exact List.mem_cons_self y ys
    exact List.mem_reverse.mp this

theorem noFirstChar_hasSub {p0 : Char} {pr s : Str} (h : ∀ c ∈ s, c ≠ p0) :
    hasSub (p0 :: pr) s = false := by
  induction s with
  | nil => rfl
  | cons x xs ih =>
    rw [hasSub_cons]
    have hx : isPre (p0 :: pr) (x :: xs) = false := by
      cases hq : isPre (p0 :: pr) (x :: xs) with
      | false => rfl
      | true => exact absurd (isPre_cons.mp hq).1.symm (h x (List.mem_cons_self x xs))
    rw [hx, Bool.false_or]
    exact ih (fun c hc => h c (List.mem_cons_of_mem _ hc))

theorem crossing_take {pat a₂ b : Str} (hp : isPre pat (a₂ ++ b) = true)
    (hl : a₂.length ≤ pat.length) : a₂ = pat.take a₂.length := by
  rw [isPre_iff] at hp
  calc a₂ = (a₂ ++ b).take a₂.length := (List.take_left a₂ b).symm
    _ = ((a₂ ++ b).take pat.length).take a₂.length := by
        rw [List.take_take, Nat.min_eq_left hl]
    _ = pat.take a₂.length := by rw [← hp]

theorem noD3_append_left {a b : Str} (ha : hasSub (str "---") a = false)
    (hb : hasSub (str "---") b = false) (hl : lastc a ≠ some '-') :
    hasSub (str "---") (a ++ b) = false := by
  cases hq : hasSub (str "---") (a ++ b) with
  | false => rfl
  | true =>
    exfalso
    rcases hasSub_append_cases _ a b hq with h1 | h2 | ⟨a₁, a₂, heq, hpos, hlt, hp⟩
    · rw [h1] at ha; exact Bool.noConfusion ha
    · rw [h2] at hb; exact Bool.noConfusion hb
    · have hta : a₂ = (str "---").take a₂.length := crossing_take hp (Nat.le_of_lt hlt)
      have hthree : (str "---").length = 3 := rfl
      have hlen : a₂.length = 1 ∨ a₂.length = 2 := by omega
      have hdash : lastc a₂ = some '-' := by
        rcases hlen with h1 | h1 <;> rw [hta, h1] <;> rfl
      have hane : a₂ ≠ [] := by
        intro hn
        rw [hn] at hpos
        simp at hpos
      rw [heq, lastc_append a₁ hane, hdash] at hl
      exact hl rfl

theorem noD3_append_right {a b : Str} (ha : hasSub (str "---") a = false)
    (hb : hasSub (str "---") b = false) (hh : b.head? ≠ some '-') :
    hasSub (str "---") (a ++ b) = false := by
  cases hq : hasSub (str "---") (a ++ b) with
  | false => rfl
  | true =>
    exfalso
    rcases hasSub_append_cases _ a b hq with h1 | h2 | ⟨a₁, a₂, heq, hpos, hlt, hp⟩
    · rw [h1] at ha; exact Bool.noConfusion ha
    · rw [h2] at hb; exact Bool.noConfusion hb
    · have hthree : (str "---").length = 3 := rfl
      have hlen : a₂.length = 1 ∨ a₂.length = 2 := by omega
      rw [isPre_iff] at hp
      have h1 : (str "---")[a₂.length]? = some '-' := by
        rcases hlen with h | h <;> rw [h] <;> rfl
      have h2 : (str "---")[a₂.length]? = (a₂ ++ b)[a₂.length]? := by
        rw [hp, List.getElem?_take, if_pos (by omega)]
      have h3 : (a₂ ++ b)[a₂.length]? = b[0]? := by
        rw [List.getElem?_append_right (Nat.le_refl _), Nat.sub_self]
      have h4 : b[0]? = b.head? := by cases b <;> simp
      rw [h2, h3, h4] at h1
      exact hh h1

theorem goodKey_chars {k : Str} (h : goodKey k = true) :
    ∀ c ∈ k, c ≠ ':' ∧ c ≠ '-' ∧ c ≠ '\n' := by
  intro c hc
  rw [goodKey, Bool.and_eq_true] at h
  have hch := List.all_eq_true.mp h.2 c hc
  refine ⟨?_, ?_, ?_⟩ <;> rintro rfl <;> revert hch <;> decide

theorem goodVal_parts {v : Str} (h : goodVal v = true) :
    (∀ c ∈ v, c ≠ '\n') ∧ hasSub (str "---") v = false ∧ hasSub (str ": ") v = false := by
  rw [goodVal, Bool.and_eq_true, Bool.and_eq_true] at h
  obtain ⟨⟨h1, h2⟩, h3⟩ := h
  refine ⟨?_, ?_, ?_⟩
  · intro c hc
    have := List.all_eq_true.mp h1 c hc
    simpa using this
  · simpa using h2
  · simpa using h3

theorem splitOnChar_append {sep : Char} {l : Str} (h : ∀ c ∈ l, c ≠ sep) (r : Str) :
    splitOnChar sep (l ++ sep :: r) = l :: splitOnChar sep r := by
  induction l with
  | nil =>
    simp [splitOnChar]
  | cons x l' ih =>
    rw [List.cons_append]
    have hx : x ≠ sep := h x (List.mem_cons_self x l')
    simp only [splitOnChar, if_neg hx]
    rw [ih (fun c hc => h c (List.mem_cons_of_mem _ hc))]

theorem noColonSp {k : Str} (h : ∀ c ∈ k, c ≠ ':') :
    hasSub (str ": ") (k ++ [':']) = false := by
  induction k with
  | nil => decide
  | cons x k' ih =>
    rw [List.cons_append, hasSub_cons]
    have h1 : isPre (str ": ") (x :: (k' ++ [':'])) = false := by
      cases hq : isPre (str ": ") (x :: (k' ++ [':'])) with
      | false => rfl
      | true =>
        rw [show str ": " = ':' :: [' '] from rfl] at hq
        exact absurd (isPre_cons.mp hq).1.symm (h x (List.mem_cons_self x k'))
    rw [h1, Bool.false_or]
    exact ih (fun c hc => h c (List.mem_cons_of_mem _ hc))

theorem parseMetaLine_entry {k v : Str} (hk : goodKey k = true) (hv : goodVal v = true) :
    parseMetaLine (k ++ str ": " ++ v) = some (k, v) := by
  have hnocc : hasSub (str ": ") (k ++ (str ": ").dropLast) = false := by
    rw [show (str ": ").dropLast = [':'] from rfl]
    exact noColonSp (fun c hc => (goodKey_chars hk c hc).1)
  have hsplit : splitSub (str ": ") (k ++ str ": " ++ v) = k :: splitSub (str ": ") v :=
    splitSub_append (by decide) k v hnocc
  have hv2 : splitSub (str ": ") v = [v] :=
    not_hasSub_splitSub (goodVal_parts hv).2.2
  simp only [parseMetaLine, hsplit, hv2]
  rfl

theorem parse_dump : ∀ {m : Meta}, goodMeta m = true →
    (splitOnChar '\n' (dumpMeta m)).filterMap parseMetaLine = m := by
  intro m
  induction m with
  | nil =>
    intro _
    decide
  | cons kv rest ih =>
    intro h
    obtain ⟨k, v⟩ := kv
    simp only [goodMeta, List.all_cons, Bool.and_eq_true] at h
    obtain ⟨⟨hk, hv⟩, hrest'⟩ := h
    have hrest : goodMeta rest = true := hrest'
    have hline : ∀ c ∈ k ++ str ": " ++ v, c ≠ '\n' := by
      intro c hc
      rcases List.mem_append.mp hc with hc1 | hc2
      · rcases List.mem_append.mp hc1 with hck | hcs
        · exact (goodKey_chars hk c hck).2.2
        · rw [show str ": " = [':', ' '] from rfl] at hcs
          rcases List.mem_cons.mp hcs with rfl | hcs'
          · decide
          · rcases List.mem_cons.mp hcs' with rfl | hcs''
            · decide
            · exact absurd hcs'' (List.not_mem_nil c)
      · exact (goodVal_parts hv).1 c hc2
    have hshape : dumpMeta ((k, v) :: rest)
        = (k ++ str ": " ++ v) ++ '\n' :: dumpMeta rest := by
      show k ++ str ": " ++ v ++ ['\n'] ++ dumpMeta rest
          = (k ++ str ": " ++ v) ++ '\n' :: dumpMeta rest
      simp [List.append_assoc]
    rw [hshape, splitOnChar_append hline, List.filterMap_cons,
      parseMetaLine_entry hk hv, ih hrest]

theorem dump_good : ∀ {m : Meta}, goodMeta m = true →
    hasSub (str "---") (dumpMeta m) = false
    ∧ (dumpMeta m = [] ∨ lastc (dumpMeta m) = some '\n') := by
  intro m
  induction m with
  | nil => intro _; exact ⟨by decide, Or.inl rfl⟩
  | cons kv rest ih =>
    intro h
    obtain ⟨k, v⟩ := kv
    simp only [goodMeta, List.all_cons, Bool.and_eq_true] at h
    obtain ⟨⟨hk, hv⟩, hrest'⟩ := h
    have hrest : goodMeta rest = true := hrest'
    obtain ⟨ihD, ihLast⟩ := ih hrest
    have eK : hasSub (str "---") k = false := by
      rw [show str "---" = '-' :: str "--" from rfl]
      exact noFirstChar_hasSub (fun c hc => (goodKey_chars hk c hc).2.1)
    have lK : lastc k ≠ some '-' := by
      intro hl
      exact (goodKey_chars hk '-' (lastc_mem hl)).2.1 rfl
    have e1 : hasSub (str "---") (k ++ str ": ") = false :=
      noD3_append_left eK (by decide) lK
    have l1 : lastc (k ++ str ": ") ≠ some '-' := by
      rw [lastc_append k (by decide : str ": " ≠ [])]
      decide
    have e2 : hasSub (str "---") ((k ++ str ": ") ++ v) = false :=
      noD3_append_left e1 (goodVal_parts hv).2.1 l1
    have e3 : hasSub (str "---") (((k ++ str ": ") ++ v) ++ ['\n']) = false :=
      noD3_append_right e2 (by decide) (by decide)
    have l3 : lastc (((k ++ str ": ") ++ v) ++ ['\n']) = some '\n' := by
      rw [lastc_append _ (by decide : (['\n'] : Str) ≠ [])]
      rfl
    have e4 : hasSub (str "---") ((((k ++ str ": ") ++ v) ++ ['\n']) ++ dumpMeta rest) = false := by
      apply noD3_append_left e3 ihD
      rw [l3]
      decide
    constructor
    · exact e4
    · right
      rcases ihLast with hD0 | hDl
      · show lastc (k ++ str ": " ++ v ++ ['\n'] ++ dumpMeta rest) = some '\n'
        rw [hD0, List.append_nil]
        exact l3
      · have hDne : dumpMeta rest ≠ [] := by
          intro hn
          rw [hn] at hDl
          simp [lastc] at hDl
        show lastc (k ++ str ": " ++ v ++ ['\n'] ++ dumpMeta rest) = some '\n'
        rw [lastc_append _ hDne]
        exact hDl

theorem goodMeta_setKey {k v : Str} (hk : goodKey k = true) (hv : goodVal v = true) :
    ∀ {m : Meta}, goodMeta m = true → goodMeta (setKey m k v) = true := by
  intro m
  induction m with
  | nil =>
    intro _
    simp [setKey, goodMeta, hk, hv]
  | cons kv rest ih =>
    intro hm
    obtain ⟨k', v'⟩ := kv
    simp only [goodMeta, List.all_cons, Bool.and_eq_true] at hm
    obtain ⟨⟨hk', hv'⟩, hrest⟩ := hm
    simp only [setKey]
    by_cases hq : (k' == k) = true
    · rw [if_pos hq]
      simp only [goodMeta, List.all_cons, Bool.and_eq_true]
      exact ⟨⟨hk, hv⟩, hrest⟩
    · rw [if_neg hq]
      simp only [goodMeta, List.all_cons, Bool.and_eq_true]
      exact ⟨⟨hk', hv'⟩, ih hrest⟩

theorem goodMeta_stamp {m : Meta} {now : Str} (hm : goodMeta m = true)
    (hn : goodVal now = true) : goodMeta (stampMeta m now) = true := by
  simp only [stampMeta]
  apply goodMeta_setKey (by decide) hn
  split
  · exact hm
  · exact goodMeta_setKey (by decide) hn hm

theorem containsKey_setKey {k0 k v : Str} :
    ∀ {m : Meta}, containsKey m k0 = true → containsKey (setKey m k v) k0 = true := by
  intro m
  induction m with
  | nil =>
    intro h
    simp [containsKey] at h
  | cons kv rest ih =>
    intro h
    obtain ⟨k', v'⟩ := kv
    simp only [containsKey, List.any_cons, Bool.or_eq_true] at h
    simp only [setKey]
    by_cases hq : (k' == k) = true
    · rw [if_pos hq]
      simp only [containsKey, List.any_cons, Bool.or_eq_true]
      rcases h with h1 | h2
      · left
        have e1 : k' = k0 := by simpa using h1
        have e2 : k' = k := by simpa using hq
        rw [← e2, e1]
        simp
      · right
        exact h2
    · rw [if_neg hq]
      simp only [containsKey, List.any_cons, Bool.or_eq_true]
      rcases h with h1 | h2
      · left
        exact h1
      · right
        exact ih h2

theorem containsKey_stamp {m : Meta} {now k0 : Str} (h : containsKey m k0 = true) :
    containsKey (stampMeta m now) k0 = true := by
  simp only [stampMeta]
  apply containsKey_setKey
  split
  · exact h
  · exact containsKey_setKey h

theorem lookupKey_setKey_self : ∀ (m : Meta) (k v : Str), lookupKey (setKey m k v) k = some v := by
  intro m k v
  induction m with
  | nil => simp [setKey, lookupKey]
  | cons kv rest ih =>
    obtain ⟨k', v'⟩ := kv
    simp only [setKey]
    by_cases hq : (k' == k) = true
    · rw [if_pos hq]
      simp [lookupKey]
    · rw [if_neg hq]
      simp only [lookupKey]
      rw [if_neg hq]
      exact ih

theorem lookupKey_setKey_ne : ∀ (m : Meta) {k k0 : Str} (v : Str), k ≠ k0 →
    lookupKey (setKey m k v) k0 = lookupKey m k0 := by
  intro m
  induction m with
  | nil =>
    intro k k0 v h
    simp [setKey, lookupKey, beq_iff_eq, h]
  | cons kv rest ih =>
    intro k k0 v h
    obtain ⟨k', v'⟩ := kv
    simp only [setKey]
    by_cases hq : (k' == k) = true
    · rw [if_pos hq]
      have e2 : k' = k := by simpa using hq
      simp only [lookupKey]
      rw [if_neg (by simpa using h), if_neg (by rw [e2]; simpa using h)]
    · rw [if_neg hq]
      simp only [lookupKey]
      by_cases hq0 : (k' == k0) = true
      · rw [if_pos hq0, if_pos hq0]
      · rw [if_neg hq0, if_neg hq0]
        exact ih v h

theorem pyStrip_double_nl (content : Str) :
    pyStrip (str "\n\n" ++ content) = pyStrip content := by
  show pyStrip ('\n' :: '\n' :: content) = pyStrip content
  unfold pyStrip
  rw [List.dropWhile_cons_of_pos (by decide), List.dropWhile_cons_of_pos (by decide)]

theorem parseMeta_nl_dump {m : Meta} (hm : goodMeta m = true) :
    parseMeta (['\n'] ++ dumpMeta m) = m := by
  unfold parseMeta
  rw [show ['\n'] ++ dumpMeta m = '\n' :: dumpMeta m from rfl]
  have hstep : splitOnChar '\n' ('\n' :: dumpMeta m) = [] :: splitOnChar '\n' (dumpMeta m) := by
    simp [splitOnChar]
  rw [hstep, List.filterMap_cons]
  have hnone : parseMetaLine [] = none := by decide
  rw [hnone]
  exact parse_dump hm

theorem load_save_roundtrip {path content : Str} {metadata : Meta} {now : Str}
    (hmd : isSuf (str ".md") path = true) (hne : metadata ≠ [])
    (hgm : goodMeta metadata = true) (hgn : goodVal now = true) :
    load_artifact path (save_artifact path content metadata now)
      = (pyStrip content, stampMeta metadata now) := by
  have hgm' : goodMeta (stampMeta metadata now) = true := goodMeta_stamp hgm hgn
  obtain ⟨hdump1, hdump2⟩ := dump_good hgm'
  have hsave : save_artifact path content metadata now
      = str "---" ++ ((['\n'] ++ dumpMeta (stampMeta metadata now)) ++ str "---"
          ++ (str "\n\n" ++ content)) := by
    unfold save_artifact
    rw [if_pos]
    · simp only [show str "---\n" = str "---" ++ ['\n'] from rfl,
        show str "---\n\n" = str "---" ++ str "\n\n" from rfl, List.append_assoc]
    · rw [Bool.and_eq_true, hmd]
      refine ⟨?_, rfl⟩
      cases metadata with
      | nil => exact absurd rfl hne
      | cons _ _ => rfl
  have hA : hasSub (str "---") (['\n'] ++ dumpMeta (stampMeta metadata now)) = false := by
    apply noD3_append_left (by decide) hdump1
    decide
  have hnocc : hasSub (str "---")
      ((['\n'] ++ dumpMeta (stampMeta metadata now)) ++ (str "---").dropLast) = false := by
    rw [show (str "---").dropLast = str "--" from rfl]
    apply noD3_append_left hA (by decide)
    rcases hdump2 with hD0 | hDl
    · rw [hD0, List.append_nil]
      decide
    · have hDne : dumpMeta (stampMeta metadata now) ≠ [] := by
        intro hn
        rw [hn] at hDl
        simp [lastc] at hDl
      rw [lastc_append ['\n'] hDne, hDl]
      decide
  have hsp : splitSub (str "---") (save_artifact path content metadata now)
      = [] :: (['\n'] ++ dumpMeta (stampMeta metadata now))
          :: splitSub (str "---") (str "\n\n" ++ content) := by
    rw [hsave, splitSub_cons_pat (by decide)]
    have hmid := splitSub_append (by decide : str "---" ≠ [])
      (['\n'] ++ dumpMeta (stampMeta metadata now)) (str "\n\n" ++ content) hnocc
    rw [hmid]
  have hload_guard : (isSuf (str ".md") path
      && isPre (str "---") (save_artifact path content metadata now)) = true := by
    rw [Bool.and_eq_true, hmd]
    refine ⟨rfl, ?_⟩
    rw [hsave]
    exact isPre_append _ _
  cases hsp3 : splitSub (str "---") (str "\n\n" ++ content) with
  | nil => exact absurd hsp3 (splitSub_ne_nil _ _)
  | cons p2 rest =>
    have hparts : pySplit2 (str "---") (save_artifact path content metadata now)
        = [[], ['\n'] ++ dumpMeta (stampMeta metadata now), str "\n\n" ++ content] := by
      unfold pySplit2
      rw [hsp, hsp3]
      show [[], ['\n'] ++ dumpMeta (stampMeta metadata now), joinWith (str "---") (p2 :: rest)]
          = [[], ['\n'] ++ dumpMeta (stampMeta metadata now), str "\n\n" ++ content]
      rw [← hsp3, join_split]
    unfold load_artifact
    rw [if_pos hload_guard, hparts]
    show (pyStrip (str "\n\n" ++ content), parseMeta (['\n'] ++ dumpMeta (stampMeta metadata now)))
        = (pyStrip content, stampMeta metadata now)
    rw [pyStrip_double_nl, parseMeta_nl_dump hgm']

theorem containsKey_setKey_self : ∀ (m : Meta) (k v : Str),
    containsKey (setKey m k v) k = true := by
  intro m k v
  induction m with
  | nil => simp [setKey, containsKey]
  | cons kv rest ih =>
    obtain ⟨k', v'⟩ := kv
    simp only [setKey]
    by_cases hq : (k' == k) = true
    · rw [if_pos hq]
      simp [containsKey]
    · rw [if_neg hq]
      simp only [containsKey, List.any_cons, Bool.or_eq_true]
      right
      exact ih

theorem phaseKey_ne_current (phase : Str) :
    str "phase_" ++ phase ++ str "_started_at" ≠ str "current_phase" := by
  intro h
  have h1 : (str "phase_" ++ phase ++ str "_started_at").head? = some 'p' := rfl
  rw [h] at h1
  exact absurd h1 (by decide)

theorem phaseKey_ne_updated (phase : Str) :
    str "phase_" ++ phase ++ str "_started_at" ≠ str "updated_at" := by
  intro h
  have h1 : (str "phase_" ++ phase ++ str "_started_at").head? = some 'p' := rfl
  rw [h] at h1
  exact absurd h1 (by decide)

/-! ## Claim C1 -/

/-- C1, counterexample: calling `update_project_phase` twice for the phase
`architecture_completed` — first at time `t1`, then at time `t2` — leaves
`phase_architecture_completed_started_at` at `t2`, the timestamp of the
*second* call, not the first: the source assigns the key unconditionally. -/
theorem c1_counterexample :
    lookupKey
      (update_project_phase
        (update_project_phase [] (str "architecture_completed") (str "t1"))
        (str "architecture_completed") (str "t2"))
      (phaseStartKey (str "architecture_completed")) = some (str "t2")
    ∧ str "t2" ≠ str "t1" := by
  decide

/-- C1, amended: every call of `update_project_phase(p)` sets
`phase_<p>_started_at` to the calling time — the last call wins, an existing
entry is overwritten — while also setting `current_phase` to `p` and
refreshing `updated_at`. -/
theorem c1_phase_timestamp_overwritten (meta : Meta) (phase now : Str) :
    lookupKey (update_project_phase meta phase now) (phaseStartKey phase) = some now
    ∧ lookupKey (update_project_phase meta phase now) (str "current_phase") = some phase
    ∧ lookupKey (update_project_phase meta phase now) (str "updated_at") = some now := by
  unfold update_project_phase
  simp only [phaseStartKey]
  refine ⟨?_, ?_, ?_⟩
  · exact lookupKey_setKey_self _ _ _
  · rw [lookupKey_setKey_ne _ _ (phaseKey_ne_current phase),
      lookupKey_setKey_ne _ _ (by decide : str "updated_at" ≠ str "current_phase")]
    exact lookupKey_setKey_self _ _ _
  · rw [lookupKey_setKey_ne _ _ (phaseKey_ne_updated phase)]
    exact lookupKey_setKey_self _ _ _

/-! ## Claim C2 -/

/-- C2, counterexample: after `save_artifact("a.md", "x\n", {k: v})`,
`load_artifact` returns content `"x"`, not the original `"x\n"` — the source
strips the loaded content (`parts[2].strip()`), so content with leading or
trailing whitespace is not returned unchanged. -/
theorem c2_counterexample :
    (load_artifact (str "a.md")
        (save_artifact (str "a.md") (str "x\n") [(str "k", str "v")] (str "t1"))).1
      = str "x"
    ∧ str "x" ≠ str "x\n" := by
  decide

/-- C2, amended: for a `.md` path and a non-empty metadata map of plain
scalar strings (`goodMeta`/`goodVal`: keys of identifier characters, values
without newlines, `---` or `": "`), `load_artifact` after `save_artifact`
returns the content *stripped of leading and trailing whitespace* (hence
unchanged whenever the content has neither) together with exactly the
stamped metadata map: a key-superset of the original with `created_at`
added when absent and `updated_at` added or refreshed to the save time. -/
theorem c2_round_trip (path content : Str) (metadata : Meta) (now : Str)
    (hmd : isSuf (str ".md") path = true) (hne : metadata ≠ [])
    (hgm : goodMeta metadata = true) (hgn : goodVal now = true) :
    load_artifact path (save_artifact path content metadata now)
      = (pyStrip content, stampMeta metadata now)
    ∧ (∀ k, containsKey metadata k = true → containsKey (stampMeta metadata now) k = true)
    ∧ containsKey (stampMeta metadata now) (str "created_at") = true
    ∧ lookupKey (stampMeta metadata now) (str "updated_at") = some now := by
  refine ⟨load_save_roundtrip hmd hne hgm hgn, ?_, ?_, ?_⟩
  · intro k hk
    exact containsKey_stamp hk
  · simp only [stampMeta]
    apply containsKey_setKey
    by_cases hq : containsKey metadata (str "created_at") = true
    · rw [if_pos hq]
      exact hq
    · rw [if_neg hq]
      exact containsKey_setKey_self _ _ _
  · simp only [stampMeta]
    exact lookupKey_setKey_self _ _ _

/-- C2 witness: the round trip at a concrete save. -/
theorem c2_witness :
    load_artifact (str "n.md")
        (save_artifact (str "n.md") (str "body") [(str "status", str "draft")] (str "t1"))
      = (pyStrip (str "body"), stampMeta [(str "status", str "draft")] (str "t1")) :=
  (c2_round_trip (str "n.md") (str "body") [(str "status", str "draft")] (str "t1")
    (by decide) (by decide) (by decide) (by decide)).1

/-! ## Claim C10 -/

/-- C10, counterexample: a `.md` save with *empty* metadata writes the raw
content, but if that content itself begins with `---`, the subsequent
`load_artifact` does not return the raw content with empty metadata — it
parses the content-embedded block as frontmatter. -/
theorem c10_counterexample :
    save_artifact (str "a.md") (str "---\nk: v\n---\n\nbody") [] (str "t1")
      = str "---\nk: v\n---\n\nbody"
    ∧ load_artifact (str "a.md") (str "---\nk: v\n---\n\nbody")
      = (str "body", [(str "k", str "v")])
    ∧ str "body" ≠ str "---\nk: v\n---\n\nbody" := by
  decide

/-- C10, amended: a save whose path does not end in `.md`, or whose metadata
map is empty or absent, writes exactly the raw content with no metadata
block and no `created_at`/`updated_at` stamping; and a subsequent
`load_artifact` of that file returns the raw content with an empty metadata
map — *provided* the stored raw content does not itself trigger frontmatter
parsing (a `.md` path with content starting with `---`). -/
theorem c10_raw_save_load (path content : Str) (metadata : Meta) (now : Str)
    (hraw : metadata = [] ∨ isSuf (str ".md") path = false)
    (hload : ¬(isSuf (str ".md") path = true ∧ isPre (str "---") content = true)) :
    save_artifact path content metadata now = content
    ∧ load_artifact path content = (content, []) := by
  constructor
  · unfold save_artifact
    rw [if_neg]
    intro hc
    rw [Bool.and_eq_true] at hc
    rcases hraw with h1 | h2
    · rw [h1] at hc
      exact absurd hc.1 (by decide)
    · rw [h2] at hc
      exact Bool.noConfusion hc.2
  · unfold load_artifact
    rw [if_neg]
    intro hc
    rw [Bool.and_eq_true] at hc
    exact hload ⟨hc.1, hc.2⟩

/-- C10 witness: a non-`.md` save/load at a concrete input. -/
theorem c10_witness :
    save_artifact (str "notes.txt") (str "hello") [(str "a", str "b")] (str "t1") = str "hello"
    ∧ load_artifact (str "notes.txt") (str "hello") = (str "hello", []) :=
  c10_raw_save_load (str "notes.txt") (str "hello") [(str "a", str "b")] (str "t1")
    (Or.inr (by decide)) (by decide)

/-! ## Claim C6 -/

theorem runOk_count : ∀ (ops : List StoreOp) (st st' : StoreState),
    (∀ o ∈ ops, topCategory o.path = str "stories") →
    st.files.length ≤ st.count →
    runOk st ops = some st' →
    st'.files.length ≤ st'.count
    ∧ st'.count + countDeletes ops = st.count + countSaves ops := by
  intro ops
  induction ops with
  | nil =>
    intro st st' _ hinv hrun
    have hst : st = st' := by
      simpa [runOk] using hrun
    subst hst
    refine ⟨hinv, ?_⟩
    simp [countSaves, countDeletes]
  | cons op rest ih =>
    intro st st' hcat hinv hrun
    cases op with
    | save p =>
      simp only [runOk] at hrun
      have hc : topCategory p = str "stories" :=
        hcat _ (List.mem_cons_self _ _)
      have hcc : artifactCategories.contains (topCategory p) = true := by
        rw [hc]
        decide
      have hb : bumpCount p true st.count = st.count + 1 := by
        unfold bumpCount
        rw [if_pos hcc]
        simp
      have hnewinv : (if st.files.contains p then st.files else st.files ++ [p]).length
          ≤ bumpCount p true st.count := by
        rw [hb]
        split
        · omega
        · simp only [List.length_append, List.length_singleton]
          omega
      obtain ⟨h1, h2⟩ := ih _ st' (fun o ho => hcat o (List.mem_cons_of_mem _ ho)) hnewinv hrun
      refine ⟨h1, ?_⟩
      rw [hb] at h2
      simp [countSaves, countDeletes, List.countP_cons] at h2 ⊢
      omega
    | delete p =>
      simp only [runOk] at hrun
      by_cases hmem : st.files.contains p = true
      · rw [if_pos hmem] at hrun
        have hpmem : p ∈ st.files := by
          simpa using hmem
        have hc : topCategory p = str "stories" :=
          hcat _ (List.mem_cons_self _ _)
        have hcc : artifactCategories.contains (topCategory p) = true := by
          rw [hc]
          decide
        have hb : bumpCount p false st.count = st.count - 1 := by
          unfold bumpCount
          rw [if_pos hcc]
          simp
        have hpos : 1 ≤ st.files.length := List.length_pos.mpr (by
          intro hn
          rw [hn] at hpmem
          exact List.not_mem_nil p hpmem)
        have hlen : (st.files.erase p).length = st.files.length - 1 :=
          List.length_erase_of_mem hpmem
        have hnewinv : (st.files.erase p).length ≤ bumpCount p false st.count := by
          rw [hb, hlen]
          omega
        obtain ⟨h1, h2⟩ := ih _ st' (fun o ho => hcat o (List.mem_cons_of_mem _ ho)) hnewinv hrun
        refine ⟨h1, ?_⟩
        rw [hb] at h2
        simp [countSaves, countDeletes, List.countP_cons] at h2 ⊢
        omega
      · rw [if_neg hmem] at hrun
        exact absurd hrun (by simp)

/-- C6: starting from a freshly initialized state (stories counter zero, no
files), after any interleaving of successful `save_artifact` and successful
`delete_artifact` calls on paths of top-level category `stories` — at every
prefix of the trace (`take k`, so in particular at the end) — the stories
counter plus the number of deletes so far equals the number of saves so
far: the counter is exactly `N − M`, never clamped below zero (a successful
delete requires the file to exist, which forces `M ≤ N` on every prefix). -/
theorem c6_stories_counter (ops : List StoreOp)
    (hcat : ∀ o ∈ ops, topCategory o.path = str "stories") :
    ∀ (k : Nat) (st' : StoreState), runOk ⟨[], 0⟩ (ops.take k) = some st' →
      st'.count + countDeletes (ops.take k) = countSaves (ops.take k) := by
  intro k st' hrun
  have hcat' : ∀ o ∈ ops.take k, topCategory o.path = str "stories" :=
    fun o ho => hcat o (List.take_subset k ops ho)
  have h := runOk_count (ops.take k) ⟨[], 0⟩ st' hcat' (by simp) hrun
  simpa using h.2

/-- C6 witness: two saves and one delete under `stories/`. -/
theorem c6_witness :
    (StoreState.mk [str "stories/b.md"] 1).count
      + countDeletes ([StoreOp.save (str "stories/a.md"), StoreOp.save (str "stories/b.md"),
          StoreOp.delete (str "stories/a.md")].take 3)
      = countSaves ([StoreOp.save (str "stories/a.md"), StoreOp.save (str "stories/b.md"),
          StoreOp.delete (str "stories/a.md")].take 3) :=
  c6_stories_counter
    [StoreOp.save (str "stories/a.md"), StoreOp.save (str "stories/b.md"),
      StoreOp.delete (str "stories/a.md")]
    (by decide) 3 ⟨[str "stories/b.md"], 1⟩ (by decide)

/-! ## Checklist engine lemmas -/

theorem item_status_mono_ss (item : ChecklistItem) (doc : Str)
    (h : _item_status item doc ValidationMode.strict = str "pass") :
    _item_status item doc ValidationMode.standard = str "pass" := by
  unfold _item_status at h ⊢
  by_cases hna : _is_na item doc = true
  · rw [if_pos hna] at h
    exact absurd h (by decide)
  · rw [if_neg hna] at h ⊢
    by_cases hemp : (_relevant_rules item doc).isEmpty = true
    · rw [if_pos hemp] at h ⊢
      exact h
    · rw [if_neg hemp] at h ⊢
      dsimp only at h ⊢
      by_cases he : (_relevant_rules item doc).countP (fun r => r.2)
          = (_relevant_rules item doc).length
      · rw [if_pos (by omega)]
      · rw [if_neg he] at h
        exact absurd h (by decide)

theorem item_status_mono_sl (item : ChecklistItem) (doc : Str)
    (h : _item_status item doc ValidationMode.standard = str "pass") :
    _item_status item doc ValidationMode.lenient = str "pass" := by
  unfold _item_status at h ⊢
  by_cases hna : _is_na item doc = true
  · rw [if_pos hna] at h
    exact absurd h (by decide)
  · rw [if_neg hna] at h ⊢
    by_cases hemp : (_relevant_rules item doc).isEmpty = true
    · rw [if_pos hemp] at h ⊢
      exact h
    · rw [if_neg hemp] at h ⊢
      dsimp only at h ⊢
      by_cases he : 7 * (_relevant_rules item doc).length
          ≤ 10 * (_relevant_rules item doc).countP (fun r => r.2)
      · rw [if_pos (by omega)]
      · rw [if_neg he] at h
        exact absurd h (by decide)

theorem sum_countP_flatMap {α β : Type} (l : List α) (f : α → List β) (p : β → Bool) :
    (l.map (fun a => (f a).countP p)).sum = (l.flatMap f).countP p := by
  induction l with
  | nil => simp
  | cons a l ih => simp [List.flatMap_cons, List.countP_append, ih]

theorem section_passed_eq (s : ChecklistSection) (doc : Str) (ctx : Meta)
    (mode : ValidationMode) :
    (_section_result s doc ctx mode).passed
      = s.items.countP (fun it => _item_status it doc mode == str "pass") := by
  simp only [_section_result]
  rw [List.countP_map]
  rfl

theorem section_failed_eq (s : ChecklistSection) (doc : Str) (ctx : Meta)
    (mode : ValidationMode) :
    (_section_result s doc ctx mode).failed
      = s.items.countP (fun it => _item_status it doc mode == str "fail") := by
  simp only [_section_result]
  rw [List.countP_map]
  rfl

theorem section_na_eq (s : ChecklistSection) (doc : Str) (ctx : Meta)
    (mode : ValidationMode) :
    (_section_result s doc ctx mode).na
      = s.items.countP (fun it =>
          !(_item_status it doc mode == str "pass")
          && !(_item_status it doc mode == str "fail")) := by
  simp only [_section_result]
  rw [List.countP_map]
  rfl

theorem exec_passed_eq (c : Checklist) (doc : Str) (ctx : Meta) (mode : ValidationMode) :
    (execute_core c doc ctx mode).passed_items
      = (c.sections.flatMap (fun s => s.items)).countP
          (fun it => _item_status it doc mode == str "pass") := by
  simp only [execute_core]
  rw [List.map_map]
  have hcomp : ((fun sr : ChecklistSectionResult => sr.passed)
      ∘ fun s => _section_result s doc ctx mode)
      = fun s => (_section_result s doc ctx mode).passed := rfl
  rw [hcomp]
  rw [List.map_congr_left (fun s _ => section_passed_eq s doc ctx mode)]
  exact sum_countP_flatMap _ _ _

theorem exec_failed_eq (c : Checklist) (doc : Str) (ctx : Meta) (mode : ValidationMode) :
    (execute_core c doc ctx mode).failed_items
      = (c.sections.flatMap (fun s => s.items)).countP
          (fun it => _item_status it doc mode == str "fail") := by
  simp only [execute_core]
  rw [List.map_map]
  have hcomp : ((fun sr : ChecklistSectionResult => sr.failed)
      ∘ fun s => _section_result s doc ctx mode)
      = fun s => (_section_result s doc ctx mode).failed := rfl
  rw [hcomp]
  rw [List.map_congr_left (fun s _ => section_failed_eq s doc ctx mode)]
  exact sum_countP_flatMap _ _ _

theorem exec_na_eq (c : Checklist) (doc : Str) (ctx : Meta) (mode : ValidationMode) :
    (execute_core c doc ctx mode).na_items
      = (c.sections.flatMap (fun s => s.items)).countP
          (fun it => !(_item_status it doc mode == str "pass")
            && !(_item_status it doc mode == str "fail")) := by
  simp only [execute_core]
  rw [List.map_map]
  have hcomp : ((fun sr : ChecklistSectionResult => sr.na)
      ∘ fun s => _section_result s doc ctx mode)
      = fun s => (_section_result s doc ctx mode).na := rfl
  rw [hcomp]
  rw [List.map_congr_left (fun s _ => section_na_eq s doc ctx mode)]
  exact sum_countP_flatMap _ _ _

theorem exec_total_eq (c : Checklist) (doc : Str) (ctx : Meta) (mode : ValidationMode) :
    (execute_core c doc ctx mode).total_items = c.total_items := rfl

/-! ## Claim C7 -/

/-- C7: `execute_checklist` fails (returns `none`, modelling the raised
`ValueError`) exactly when the mode string is not one of
`strict`/`standard`/`lenient`; for those three values it returns a
`ChecklistExecutionResult` for every checklist, document and context — the
executor has no failure mode of its own. -/
theorem c7_mode_validation (checklist : Checklist) (document_content : Str)
    (context : Meta) (mode : Str) :
    (execute_checklist checklist document_content context mode).isSome = true
    ↔ (mode = str "strict" ∨ mode = str "standard" ∨ mode = str "lenient") := by
  unfold execute_checklist modeOfString
  by_cases h1 : mode = str "strict"
  · subst h1
    exact ⟨fun _ => Or.inl rfl, fun _ => rfl⟩
  · by_cases h2 : mode = str "standard"
    · subst h2
      exact ⟨fun _ => Or.inr (Or.inl rfl), fun _ => rfl⟩
    · by_cases h3 : mode = str "lenient"
      · subst h3
        exact ⟨fun _ => Or.inr (Or.inr rfl), fun _ => rfl⟩
      · simp [h1, h2, h3]

/-! ## Claim C3 -/

/-- C3: monotonic relaxation of the strictness modes. Per item, a `pass`
in `strict` mode implies a `pass` in `standard` mode, which implies a
`pass` in `lenient` mode; consequently the number of passed items of an
execution is monotone (`strict ≤ standard ≤ lenient`) while `total_items`
is the same in all three modes, so the pass rate is monotone as well. -/
theorem c3_strictness_monotone (c : Checklist) (doc : Str) (ctx : Meta) :
    ((execute_core c doc ctx ValidationMode.strict).passed_items
        ≤ (execute_core c doc ctx ValidationMode.standard).passed_items
      ∧ (execute_core c doc ctx ValidationMode.standard).passed_items
        ≤ (execute_core c doc ctx ValidationMode.lenient).passed_items)
    ∧ (∀ item : ChecklistItem,
        (_item_status item doc ValidationMode.strict = str "pass" →
          _item_status item doc ValidationMode.standard = str "pass")
        ∧ (_item_status item doc ValidationMode.standard = str "pass" →
          _item_status item doc ValidationMode.lenient = str "pass"))
    ∧ (execute_core c doc ctx ValidationMode.strict).total_items = c.total_items
    ∧ (execute_core c doc ctx ValidationMode.standard).total_items = c.total_items
    ∧ (execute_core c doc ctx ValidationMode.lenient).total_items = c.total_items := by
  refine ⟨⟨?_, ?_⟩,
    fun item => ⟨item_status_mono_ss item doc, item_status_mono_sl item doc⟩,
    rfl, rfl, rfl⟩
  · rw [exec_passed_eq, exec_passed_eq]
    apply List.countP_mono_left
    intro it _ h
    have h' : _item_status it doc ValidationMode.strict = str "pass" := by simpa using h
    simpa using item_status_mono_ss it doc h'
  · rw [exec_passed_eq, exec_passed_eq]
    apply List.countP_mono_left
    intro it _ h
    have h' : _item_status it doc ValidationMode.standard = str "pass" := by simpa using h
    simpa using item_status_mono_sl it doc h'

/-- C3 witness: an item passing in strict mode passes in standard mode. -/
theorem c3_witness :
    _item_status ⟨str "goal", true, str "G"⟩ (str "goal") ValidationMode.standard
      = str "pass" :=
  ((c3_strictness_monotone ⟨str "c", [], 0⟩ (str "goal") []).2.1
    ⟨str "goal", true, str "G"⟩).1 (by decide)

theorem countP_partition3 {α : Type} (l : List α) (p q : α → Bool)
    (hpq : ∀ a ∈ l, ¬(p a = true ∧ q a = true)) :
    l.countP p + l.countP q + l.countP (fun a => !p a && !q a) = l.length := by
  induction l with
  | nil => simp
  | cons a l ih =>
    have hrest : ∀ a ∈ l, ¬(p a = true ∧ q a = true) :=
      fun a ha => hpq a (List.mem_cons_of_mem _ ha)
    have hih := ih hrest
    simp only [List.countP_cons, List.length_cons]
    by_cases hp : p a = true
    · by_cases hq : q a = true
      · exact absurd ⟨hp, hq⟩ (hpq a (List.mem_cons_self _ _))
      · simp [hp, hq]
        omega
    · by_cases hq : q a = true
      · simp [hp, hq]
        omega
      · simp [hp, hq]
        omega

theorem exec_sum (c : Checklist) (doc : Str) (ctx : Meta) (mode : ValidationMode) :
    (execute_core c doc ctx mode).passed_items + (execute_core c doc ctx mode).failed_items
      + (execute_core c doc ctx mode).na_items
      = (c.sections.flatMap (fun s => s.items)).length := by
  rw [exec_passed_eq, exec_failed_eq, exec_na_eq]
  apply countP_partition3
  intro a _
  rintro ⟨h1, h2⟩
  have e1 : _item_status a doc mode = str "pass" := by simpa using h1
  have e2 : _item_status a doc mode = str "fail" := by simpa using h2
  rw [e1] at e2
  exact absurd e2 (by decide)

theorem parse_total_aux : ∀ (lines : List Str) (st : ParseState),
    st.total = (st.secs.flatMap (fun s => s.items)).length
      + (st.cur.elim 0 (fun s => s.items.length)) →
    (lines.foldl parseStep st).total
      = ((lines.foldl parseStep st).secs.flatMap (fun s => s.items)).length
        + ((lines.foldl parseStep st).cur.elim 0 (fun s => s.items.length)) := by
  intro lines
  induction lines with
  | nil =>
    intro st h
    exact h
  | cons l rest ih =>
    intro st h
    apply ih
    simp only [parseStep]
    by_cases h1 : (isPre (str "##") (pyStrip l) && !isPre (str "###") (pyStrip l)) = true
    · rw [if_pos h1]
      cases hc : st.cur with
      | none =>
        show st.total = ((st.secs ++ []).flatMap (fun s => s.items)).length + 0
        rw [List.append_nil]
        rw [hc] at h
        simp only [Option.elim] at h
        omega
      | some s =>
        show st.total = ((st.secs ++ [s]).flatMap (fun s => s.items)).length + 0
        rw [List.flatMap_append]
        simp only [List.flatMap_cons, List.flatMap_nil, List.append_nil, List.length_append]
        rw [hc] at h
        simp only [Option.elim] at h
        omega
    · rw [if_neg h1]
      by_cases h2 : isPre (str "- [ ]") (pyStrip l) = true
      · rw [if_pos h2]
        cases hc : st.cur with
        | none =>
          show st.total = (st.secs.flatMap (fun s => s.items)).length
              + (st.cur.elim 0 (fun s => s.items.length))
          exact h
        | some s =>
          show st.total + 1 = (st.secs.flatMap (fun s => s.items)).length
              + (s.items
                  ++ [ChecklistItem.mk (pyStrip (delSub (str "- [ ]") (pyStrip l)))
                        true s.title]).length
          rw [hc] at h
          simp only [Option.elim] at h
          simp only [List.length_append, List.length_singleton]
          omega
      · rw [if_neg h2]
        by_cases h3 : (st.cur.isSome && !(pyStrip l).isEmpty
            && !isPre (str "#") (pyStrip l) && !isPre (str "-") (pyStrip l)) = true
        · rw [if_pos h3]
          cases hc : st.cur with
          | none =>
            show st.total = (st.secs.flatMap (fun s => s.items)).length
                + (st.cur.elim 0 (fun s => s.items.length))
            exact h
          | some s =>
            show st.total = (st.secs.flatMap (fun s => s.items)).length + s.items.length
            rw [hc] at h
            simp only [Option.elim] at h
            exact h
        · rw [if_neg h3]
          exact h

theorem parse_total (content checklist_name : Str) :
    (_parse_checklist_content content checklist_name).total_items
      = ((_parse_checklist_content content checklist_name).sections.map
          (fun s => s.items.length)).sum := by
  unfold _parse_checklist_content
  dsimp only
  have h := parse_total_aux (splitOnChar '\n' content) ⟨none, [], 0⟩ (by simp)
  rw [h]
  rw [List.map_append, List.sum_append]
  have h1 : (((splitOnChar '\n' content).foldl parseStep ⟨none, [], 0⟩).secs.flatMap
      (fun s => s.items)).length
      = (((splitOnChar '\n' content).foldl parseStep ⟨none, [], 0⟩).secs.map
          (fun s => s.items.length)).sum := by
    rw [List.length_flatMap]
    rfl
  rw [h1]
  cases hc : ((splitOnChar '\n' content).foldl parseStep ⟨none, [], 0⟩).cur with
  | none => simp [Option.elim, Option.toList]
  | some s => simp [Option.elim, Option.toList]

/-! ## Claim C5 -/

/-- C5: for every parser-produced checklist, `total_items` equals the sum of
the per-section item counts; and every `ChecklistExecutionResult` that
`execute_checklist` produces from it (under a valid mode string) satisfies
`passed_items + failed_items + na_items = total_items`, with the result's
`total_items` equal to the checklist's. -/
theorem c5_total_items_consistency (content checklist_name doc : Str) (ctx : Meta)
    (modeStr : Str) (r : ChecklistExecutionResult)
    (h : execute_checklist (_parse_checklist_content content checklist_name) doc ctx modeStr
        = some r) :
    (_parse_checklist_content content checklist_name).total_items
      = ((_parse_checklist_content content checklist_name).sections.map
          (fun s => s.items.length)).sum
    ∧ r.passed_items + r.failed_items + r.na_items = r.total_items
    ∧ r.total_items = (_parse_checklist_content content checklist_name).total_items := by
  obtain ⟨m, hr⟩ : ∃ m, r = execute_core (_parse_checklist_content content checklist_name)
      doc ctx m := by
    unfold execute_checklist at h
    cases hms : modeOfString modeStr with
    | none =>
      rw [hms] at h
      exact absurd h (by simp)
    | some m =>
      rw [hms] at h
      exact ⟨m, by simpa using h.symm⟩
  subst hr
  refine ⟨parse_total content checklist_name, ?_, exec_total_eq _ _ _ _⟩
  rw [exec_sum, exec_total_eq]
  rw [List.length_flatMap]
  have := (parse_total content checklist_name).symm
  rw [← this]
  rfl

/-- C5 witness: the empty document parses to an empty checklist, and the
execution result's tallies are consistent. -/
theorem c5_witness :
    (_parse_checklist_content (str "") (str "n")).total_items
      = ((_parse_checklist_content (str "") (str "n")).sections.map
          (fun s => s.items.length)).sum
    ∧ (execute_core (_parse_checklist_content (str "") (str "n")) (str "") []
        ValidationMode.standard).passed_items
      + (execute_core (_parse_checklist_content (str "") (str "n")) (str "") []
          ValidationMode.standard).failed_items
      + (execute_core (_parse_checklist_content (str "") (str "n")) (str "") []
          ValidationMode.standard).na_items
      = (execute_core (_parse_checklist_content (str "") (str "n")) (str "") []
          ValidationMode.standard).total_items
    ∧ (execute_core (_parse_checklist_content (str "") (str "n")) (str "") []
        ValidationMode.standard).total_items
      = (_parse_checklist_content (str "") (str "n")).total_items :=
  c5_total_items_consistency (str "") (str "n") (str "") [] (str "standard")
    (execute_core (_parse_checklist_content (str "") (str "n")) (str "") []
      ValidationMode.standard) rfl

theorem exec_details_eq (c : Checklist) (doc : Str) (ctx : Meta) (mode : ValidationMode) :
    (execute_core c doc ctx mode).failed_items_details
      = c.sections.flatMap (fun s => _section_details s doc ctx mode) := rfl

theorem exec_recommendations_eq (c : Checklist) (doc : Str) (ctx : Meta)
    (mode : ValidationMode) :
    (execute_core c doc ctx mode).recommendations
      = _generate_recommendations (execute_core c doc ctx mode) mode := rfl

/-! ## Claim C9 -/

/-- C9: executing a parser-produced checklist with `total_items = 0` (in any
valid mode, against any document and context) yields exactly the two
escalating below-70% remediation messages — the empty checklist counts as a
0% pass rate even though nothing failed — and no targeted per-section
message (the recommendations list is exactly the two messages). -/
theorem c9_empty_checklist (content checklist_name doc : Str) (ctx : Meta)
    (mode : ValidationMode)
    (h : (_parse_checklist_content content checklist_name).total_items = 0) :
    (execute_core (_parse_checklist_content content checklist_name) doc ctx mode).recommendations
      = [str "Document requires significant improvement before proceeding to next phase",
         str "Focus on addressing failed items systematically"] := by
  have htot := parse_total content checklist_name
  rw [h] at htot
  have hall : ∀ s ∈ (_parse_checklist_content content checklist_name).sections,
      s.items = [] := by
    intro s hs
    have hmem : s.items.length
        ∈ ((_parse_checklist_content content checklist_name).sections.map
            (fun s => s.items.length)) :=
      List.mem_map_of_mem _ hs
    have hle := List.single_le_sum (fun x _ => Nat.zero_le x) _ hmem
    rw [← htot] at hle
    exact List.length_eq_zero.mp (by omega)
  have hdet : (execute_core (_parse_checklist_content content checklist_name)
      doc ctx mode).failed_items_details = [] := by
    rw [exec_details_eq]
    apply List.eq_nil_of_length_eq_zero
    rw [List.length_flatMap]
    apply List.sum_eq_zero
    intro x hx
    obtain ⟨s, hs, rfl⟩ := List.mem_map.mp hx
    show (_section_details s doc ctx mode).length = 0
    simp [_section_details, hall s hs]
  rw [exec_recommendations_eq]
  unfold _generate_recommendations
  rw [hdet]
  show _base_recommendations (execute_core (_parse_checklist_content content checklist_name)
      doc ctx mode) = _
  unfold _base_recommendations
  rw [if_pos (show _ = true by simp [exec_total_eq, h])]

/-- C9 witness: a section with description text but no items parses to an
empty checklist, and every execution of it emits the two messages. -/
theorem c9_witness :
    (execute_core (_parse_checklist_content (str "## S\ntext") (str "n")) (str "doc") []
        ValidationMode.lenient).recommendations
      = [str "Document requires significant improvement before proceeding to next phase",
         str "Focus on addressing failed items systematically"] :=
  c9_empty_checklist (str "## S\ntext") (str "n") (str "doc") [] ValidationMode.lenient
    (by decide)

theorem isPre_pre {p q s : Str} (h : isPre (p ++ q) s = true) : isPre p s = true := by
  rw [isPre_iff] at h ⊢
  calc p = (p ++ q).take p.length := (List.take_left p q).symm
    _ = (s.take (p ++ q).length).take p.length := by rw [← h]
    _ = s.take (min p.length (p ++ q).length) := List.take_take _ _ _
    _ = s.take p.length := by
        rw [Nat.min_eq_left (by simp only [List.length_append]; omega)]

/-! ## Claim C4 -/

/-- C4, counterexample: with a section open, the line `- note` — non-empty,
not a heading, not an unchecked-checkbox item — is *dropped*, not appended
to the section description (the source skips every line starting with `-`,
not only `- [ ]` items): the parsed section's description stays empty. -/
theorem c4_counterexample :
    ((_parse_checklist_content (str "## S\n- note") (str "n")).sections.map
      (fun s => s.description)) = [[]]
    ∧ str "- note" ≠ ([] : Str) := by
  decide

/-- C4, amended: with a section open, every non-empty line that starts with
neither `#` nor `-` (after stripping) is appended, space-joined, to the
current section's description and nothing else in the parse state changes;
lines starting with `#` (other than `##` headings) or with `-` (other than
`- [ ]` items) are dropped instead. -/
theorem c4_description_lines (st : ParseState) (s : ChecklistSection) (rawLine : Str)
    (hcur : st.cur = some s)
    (hne : pyStrip rawLine ≠ [])
    (hh : isPre (str "#") (pyStrip rawLine) = false)
    (hd : isPre (str "-") (pyStrip rawLine) = false) :
    parseStep st rawLine
      = { st with
          cur := some { s with
            description :=
              if s.description.isEmpty then pyStrip rawLine
              else s.description ++ str " " ++ pyStrip rawLine } } := by
  have h1 : (isPre (str "##") (pyStrip rawLine)
      && !isPre (str "###") (pyStrip rawLine)) = false := by
    cases hq : isPre (str "##") (pyStrip rawLine) with
    | false => rfl
    | true =>
      have hq' : isPre (str "#" ++ str "#") (pyStrip rawLine) = true := by
        rw [show str "#" ++ str "#" = str "##" from rfl]
        exact hq
      have := isPre_pre hq'
      rw [hh] at this
      exact Bool.noConfusion this
  have h2 : isPre (str "- [ ]") (pyStrip rawLine) = false := by
    cases hq : isPre (str "- [ ]") (pyStrip rawLine) with
    | false => rfl
    | true =>
      have hq' : isPre (str "-" ++ str " [ ]") (pyStrip rawLine) = true := by
        rw [show str "-" ++ str " [ ]" = str "- [ ]" from rfl]
        exact hq
      have := isPre_pre hq'
      rw [hd] at this
      exact Bool.noConfusion this
  have hemp : (pyStrip rawLine).isEmpty = false := by
    cases hpe : pyStrip rawLine with
    | nil => exact absurd hpe hne
    | cons a l => rfl
  have h3 : (st.cur.isSome && !(pyStrip rawLine).isEmpty
      && !isPre (str "#") (pyStrip rawLine) && !isPre (str "-") (pyStrip rawLine)) = true := by
    rw [hcur, hemp, hh, hd]
    rfl
  simp only [parseStep]
  rw [if_neg (by simp [h1]), if_neg (by simp [h2]), if_pos h3, hcur]

/-- C4 witness: a plain text line is appended as the description. -/
theorem c4_witness :
    parseStep ⟨some ⟨str "S", [], []⟩, [], 0⟩ (str "text")
      = ⟨some ⟨str "S", str "text", []⟩, [], 0⟩ := by
  rw [c4_description_lines ⟨some ⟨str "S", [], []⟩, [], 0⟩ ⟨str "S", [], []⟩ (str "text")
    rfl (by decide) (by decide) (by decide)]
  decide

theorem mem_fsFold : ∀ (l : List Str) (acc : List Str) (x : Str),
    (x ∈ l.foldl (fun acc y => if acc.contains y then acc else acc ++ [y]) acc
    ↔ x ∈ acc ∨ x ∈ l) := by
  intro l
  induction l with
  | nil =>
    intro acc x
    simp
  | cons y ys ih =>
    intro acc x
    simp only [List.foldl_cons]
    by_cases hy : acc.contains y = true
    · rw [if_pos hy, ih]
      have hmy : y ∈ acc := by simpa using hy
      constructor
      · rintro (h | h)
        · exact Or.inl h
        · exact Or.inr (List.mem_cons_of_mem _ h)
      · rintro (h | h)
        · exact Or.inl h
        · rcases List.mem_cons.mp h with rfl | h2
          · exact Or.inl hmy
          · exact Or.inr h2
    · rw [if_neg hy, ih]
      constructor
      · rintro (h | h)
        · rcases List.mem_append.mp h with h1 | h1
          · exact Or.inl h1
          · have : x = y := by simpa using h1
            exact Or.inr (this ▸ List.mem_cons_self _ _)
        · exact Or.inr (List.mem_cons_of_mem _ h)
      · rintro (h | h)
        · exact Or.inl (List.mem_append_left _ h)
        · rcases List.mem_cons.mp h with rfl | h2
          · exact Or.inl (List.mem_append_right _ (by simp))
          · exact Or.inr h2

theorem mem_firstSeen {l : List Str} {x : Str} : x ∈ firstSeen l ↔ x ∈ l := by
  unfold firstSeen
  rw [mem_fsFold]
  simp

theorem nodup_fsFold : ∀ (l : List Str) (acc : List Str), acc.Nodup →
    (l.foldl (fun acc y => if acc.contains y then acc else acc ++ [y]) acc).Nodup := by
  intro l
  induction l with
  | nil =>
    intro acc h
    exact h
  | cons y ys ih =>
    intro acc h
    simp only [List.foldl_cons]
    by_cases hy : acc.contains y = true
    · rw [if_pos hy]
      exact ih acc h
    · rw [if_neg hy]
      apply ih
      rw [List.nodup_append]
      refine ⟨h, by simp, ?_⟩
      intro a ha hay
      have : a = y := by simpa using hay
      subst this
      have : acc.contains a = true := by simpa using ha
      rw [this] at hy
      exact hy rfl

theorem nodup_firstSeen (l : List Str) : (firstSeen l).Nodup :=
  nodup_fsFold l [] (by simp)

theorem firstSeen_snoc (l : List Str) (x : Str) :
    firstSeen (l ++ [x])
      = if (firstSeen l).contains x then firstSeen l else firstSeen l ++ [x] := by
  unfold firstSeen
  rw [List.foldl_append]
  rfl

theorem firstIndex_append_of_mem : ∀ {l : List Str} (l' : List Str) {c : Str}, c ∈ l →
    firstIndex c (l ++ l') = firstIndex c l := by
  intro l
  induction l with
  | nil =>
    intro l' c h
    simp at h
  | cons y ys ih =>
    intro l' c h
    simp only [List.cons_append, firstIndex, List.append_eq]
    by_cases hy : (y == c) = true
    · rw [if_pos hy, if_pos hy]
    · rw [if_neg hy, if_neg hy]
      have hc : c ∈ ys := by
        rcases List.mem_cons.mp h with h1 | h2
        · exact absurd (by rw [h1]; simp) hy
        · exact h2
      rw [ih l' hc]

theorem firstIndex_append_of_not_mem : ∀ {l : List Str} (l' : List Str) {c : Str}, c ∉ l →
    firstIndex c (l ++ l') = l.length + firstIndex c l' := by
  intro l
  induction l with
  | nil =>
    intro l' c _
    simp [firstIndex]
  | cons y ys ih =>
    intro l' c h
    have hy : (y == c) = false := by
      have : y ≠ c := fun he => h (he ▸ List.mem_cons_self _ _)
      simpa using this
    simp only [List.cons_append, firstIndex, List.append_eq,
      if_neg (by simp [hy] : ¬(y == c) = true)]
    rw [ih l' (fun hc => h (List.mem_cons_of_mem _ hc))]
    simp only [List.length_cons]
    omega

theorem firstIndex_lt_length : ∀ {l : List Str} {c : Str}, c ∈ l →
    firstIndex c l < l.length := by
  intro l
  induction l with
  | nil =>
    intro c h
    simp at h
  | cons y ys ih =>
    intro c h
    simp only [firstIndex, List.length_cons]
    by_cases hy : (y == c) = true
    · rw [if_pos hy]
      omega
    · rw [if_neg hy]
      have hc : c ∈ ys := by
        rcases List.mem_cons.mp h with h1 | h2
        · exact absurd (by rw [h1]; simp) hy
        · exact h2
      have := ih hc
      omega

theorem firstSeen_sorted : ∀ (l : List Str),
    (firstSeen l).Pairwise (fun a b => firstIndex a l < firstIndex b l) := by
  intro l
  induction l using List.reverseRecOn with
  | nil => simp [firstSeen]
  | append_singleton l x ih =>
    rw [firstSeen_snoc]
    by_cases hc : (firstSeen l).contains x = true
    · rw [if_pos hc]
      apply List.Pairwise.imp_of_mem ?_ ih
      intro a b ha hb hab
      rw [firstIndex_append_of_mem _ (mem_firstSeen.mp ha),
        firstIndex_append_of_mem _ (mem_firstSeen.mp hb)]
      exact hab
    · rw [if_neg hc]
      have hax : x ∉ l := by
        intro hx
        have : (firstSeen l).contains x = true := by
          simpa using mem_firstSeen.mpr hx
        rw [this] at hc
        exact hc rfl
      rw [List.pairwise_append]
      refine ⟨?_, by simp, ?_⟩
      · apply List.Pairwise.imp_of_mem ?_ ih
        intro a b ha hb hab
        rw [firstIndex_append_of_mem _ (mem_firstSeen.mp ha),
          firstIndex_append_of_mem _ (mem_firstSeen.mp hb)]
        exact hab
      · intro a ha b hb
        have hbx : b = x := by simpa using hb
        subst hbx
        rw [firstIndex_append_of_mem _ (mem_firstSeen.mp ha),
          firstIndex_append_of_not_mem _ hax]
        have := firstIndex_lt_length (mem_firstSeen.mp ha)
        omega

theorem bump_map_not_mem : ∀ (fs : List Str) (cnt : Str → Nat) {c : Str}, c ∉ fs →
    bumpCategory (fs.map (fun c' => (c', cnt c'))) c
      = fs.map (fun c' => (c', cnt c')) ++ [(c, 1)] := by
  intro fs
  induction fs with
  | nil =>
    intro cnt c _
    simp [bumpCategory]
  | cons x xs ih =>
    intro cnt c hc
    have hx : (x == c) = false := by
      have : x ≠ c := fun he => hc (he ▸ List.mem_cons_self _ _)
      simpa using this
    simp only [List.map_cons, bumpCategory]
    rw [if_neg (by simp [hx])]
    rw [ih cnt (fun hcx => hc (List.mem_cons_of_mem _ hcx))]
    rfl

theorem bump_map_mem : ∀ (fs : List Str) (cnt : Str → Nat) {c : Str}, c ∈ fs → fs.Nodup →
    bumpCategory (fs.map (fun c' => (c', cnt c'))) c
      = fs.map (fun c' => (c', cnt c' + if c' == c then 1 else 0)) := by
  intro fs
  induction fs with
  | nil =>
    intro cnt c hc _
    simp at hc
  | cons x xs ih =>
    intro cnt c hc hnd
    obtain ⟨hx_nin, hxs_nd⟩ := List.nodup_cons.mp hnd
    by_cases hx : (x == c) = true
    · have hxc : x = c := by simpa using hx
      simp only [List.map_cons, bumpCategory]
      rw [if_pos hx]
      rw [if_pos hx]
      congr 1
      apply List.map_congr_left
      intro a ha
      have hac : (a == c) = false := by
        have : a ≠ c := by
          intro he
          rw [he, ← hxc] at ha
          exact hx_nin ha
        simpa using this
      rw [if_neg (by simp [hac])]
      simp
    · have hcx : c ∈ xs := by
        rcases List.mem_cons.mp hc with h1 | h2
        · exact absurd (by rw [h1]; simp) hx
        · exact h2
      simp only [List.map_cons, bumpCategory]
      rw [if_neg (by simp [hx])]
      rw [ih cnt hcx hxs_nd]
      rw [if_neg (by simp [hx])]
      simp

theorem bump_catCounts (done : List FailedDetail) (d : FailedDetail) :
    bumpCategory (catCounts done) d.category = catCounts (done ++ [d]) := by
  unfold catCounts
  rw [List.map_append, List.map_cons, List.map_nil, firstSeen_snoc]
  by_cases hc : (firstSeen (done.map (fun d => d.category))).contains d.category = true
  · rw [if_pos hc]
    have hmem : d.category ∈ firstSeen (done.map (fun d => d.category)) := by
      simpa using hc
    rw [bump_map_mem _ _ hmem (nodup_firstSeen _)]
    apply List.map_congr_left
    intro c' _
    have hcnt : (done ++ [d]).countP (fun e => e.category == c')
        = done.countP (fun e => e.category == c') + if c' == d.category then 1 else 0 := by
      rw [List.countP_append]
      by_cases he : d.category = c'
      · simp [List.countP_cons, he]
      · have h1 : (d.category == c') = false := by simpa using he
        have h2 : (c' == d.category) = false := by simpa using (Ne.symm he)
        simp [List.countP_cons, h1, h2]
    rw [hcnt]
  · rw [if_neg hc]
    have hnmem : d.category ∉ firstSeen (done.map (fun d => d.category)) := by
      intro hmm
      have : (firstSeen (done.map (fun d => d.category))).contains d.category = true := by
        simpa using hmm
      rw [this] at hc
      exact hc rfl
    rw [bump_map_not_mem _ _ hnmem, List.map_append, List.map_cons, List.map_nil]
    congr 1
    · apply List.map_congr_left
      intro c' hc'
      have hne : (d.category == c') = false := by
        have : d.category ≠ c' := by
          intro he
          rw [he] at hnmem
          exact hnmem hc'
        simpa using this
      rw [List.countP_append]
      simp [List.countP_cons, hne]
    · have hzero : done.countP (fun e => e.category == d.category) = 0 := by
        rw [List.countP_eq_zero]
        intro e he hpe
        have : e.category = d.category := by simpa using hpe
        apply hnmem
        apply mem_firstSeen.mpr
        rw [← this]
        exact List.mem_map_of_mem _ he
      rw [List.countP_append, hzero]
      simp [List.countP_cons]

theorem buildCategories_fold_eq : ∀ (rest done : List FailedDetail),
    rest.foldl (fun acc d => bumpCategory acc d.category) (catCounts done)
      = catCounts (done ++ rest) := by
  intro rest
  induction rest with
  | nil =>
    intro done
    simp
  | cons d ds ih =>
    intro done
    simp only [List.foldl_cons]
    rw [bump_catCounts done d, ih (done ++ [d])]
    rw [List.append_assoc]
    rfl

theorem buildCategories_spec (details : List FailedDetail) :
    buildCategories details = catCounts details := by
  unfold buildCategories
  have h := buildCategories_fold_eq details []
  rw [show catCounts [] = [] from rfl] at h
  simpa using h

theorem foldl_max_spec : ∀ (xs : List (Str × Nat)) (best : Str × Nat),
    ∃ pre post,
      best :: xs
        = pre ++ (xs.foldl (fun b y => if b.2 < y.2 then y else b) best) :: post
      ∧ (∀ y ∈ pre, y.2 < (xs.foldl (fun b y => if b.2 < y.2 then y else b) best).2)
      ∧ (∀ y ∈ best :: xs, y.2 ≤ (xs.foldl (fun b y => if b.2 < y.2 then y else b) best).2) := by
  intro xs
  induction xs with
  | nil =>
    intro best
    exact ⟨[], [], rfl, by simp, by simp⟩
  | cons y ys ih =>
    intro best
    simp only [List.foldl_cons]
    by_cases hb : best.2 < y.2
    · rw [if_pos hb]
      obtain ⟨pre, post, hsplit, hpre, hall⟩ := ih y
      refine ⟨best :: pre, post, ?_, ?_, ?_⟩
      · rw [List.cons_append, ← hsplit]
      · intro z hz
        rcases List.mem_cons.mp hz with rfl | h2
        · exact Nat.lt_of_lt_of_le hb (hall y (List.mem_cons_self _ _))
        · exact hpre z h2
      · intro z hz
        rcases List.mem_cons.mp hz with rfl | h2
        · exact Nat.le_of_lt (Nat.lt_of_lt_of_le hb (hall y (List.mem_cons_self _ _)))
        · exact hall z h2
    · rw [if_neg hb]
      obtain ⟨pre, post, hsplit, hpre, hall⟩ := ih best
      cases pre with
      | nil =>
        simp only [List.nil_append] at hsplit
        refine ⟨[], y :: post, ?_, by simp, ?_⟩
        · rw [List.nil_append]
          have h1 : best = ys.foldl (fun b y => if b.2 < y.2 then y else b) best := by
            have := congrArg (fun l => l.head?) hsplit
            simpa using this
          have h2 : ys = post := by
            have := congrArg List.tail hsplit
            simpa using this
          rw [← h1, ← h2]
        · intro z hz
          rcases List.mem_cons.mp hz with rfl | h2
          · exact hall z (List.mem_cons_self _ _)
          · rcases List.mem_cons.mp h2 with rfl | h3
            · have hy : z.2 ≤ best.2 := Nat.le_of_not_lt hb
              exact Nat.le_trans hy (hall best (List.mem_cons_self _ _))
            · exact hall z (List.mem_cons_of_mem _ h3)
      | cons p0 pre' =>
        have h1 : p0 = best := by
          have := congrArg (fun l => l.head?) hsplit
          simpa using this.symm
        have h2 : ys = pre' ++ (ys.foldl (fun b y => if b.2 < y.2 then y else b) best) :: post := by
          have := congrArg List.tail hsplit
          simpa using this
        refine ⟨best :: y :: pre', post, ?_, ?_, ?_⟩
        · rw [List.cons_append, List.cons_append, ← h2]
        · intro z hz
          rcases List.mem_cons.mp hz with rfl | hz2
          · apply hpre
            rw [h1]
            exact List.mem_cons_self _ _
          · rcases List.mem_cons.mp hz2 with rfl | hz3
            · have hy : z.2 ≤ best.2 := Nat.le_of_not_lt hb
              have hbest : best.2 < (ys.foldl (fun b y => if b.2 < y.2 then y else b) best).2 := by
                have := hpre p0 (List.mem_cons_self _ _)
                rw [h1] at this
                exact this
              omega
            · exact hpre z (List.mem_cons_of_mem _ hz3)
        · intro z hz
          rcases List.mem_cons.mp hz with rfl | hz2
          · exact hall z (List.mem_cons_self _ _)
          · rcases List.mem_cons.mp hz2 with rfl | hz3
            · have hy : z.2 ≤ best.2 := Nat.le_of_not_lt hb
              exact Nat.le_trans hy (hall best (List.mem_cons_self _ _))
            · exact hall z (List.mem_cons_of_mem _ hz3)

theorem pyMaxSnd_spec {l : List (Str × Nat)} {c : Str} {k : Nat}
    (h : pyMaxSnd l = some (c, k)) :
    ∃ pre post, l = pre ++ (c, k) :: post
      ∧ (∀ y ∈ pre, y.2 < k) ∧ (∀ y ∈ l, y.2 ≤ k) := by
  cases l with
  | nil => exact absurd h (by simp [pyMaxSnd])
  | cons x xs =>
    have hf : xs.foldl (fun b y => if b.2 < y.2 then y else b) x = (c, k) := by
      simpa [pyMaxSnd] using h
    obtain ⟨pre, post, hsplit, hpre, hall⟩ := foldl_max_spec xs x
    rw [hf] at hsplit hpre hall
    exact ⟨pre, post, hsplit, hpre, hall⟩

theorem length_filterMap_ite {α β : Type} (l : List α) (p : α → Bool) (f : α → β) :
    (l.filterMap (fun r => if p r then some (f r) else none)).length = l.countP p := by
  induction l with
  | nil => rfl
  | cons a l ih =>
    by_cases hp : p a = true <;>
      simp [List.filterMap_cons, List.countP_cons, hp, ih]

theorem exec_details_length (c : Checklist) (doc : Str) (ctx : Meta) (mode : ValidationMode) :
    (execute_core c doc ctx mode).failed_items_details.length
      = (execute_core c doc ctx mode).failed_items := by
  rw [exec_details_eq, exec_failed_eq, List.length_flatMap, ← sum_countP_flatMap]
  apply congrArg
  apply List.map_congr_left
  intro s _
  show (_section_details s doc ctx mode).length
      = s.items.countP (fun it => _item_status it doc mode == str "fail")
  unfold _section_details
  rw [length_filterMap_ite, List.countP_map]
  rfl

theorem base_ne_target (r : ChecklistExecutionResult) (cat : Str) (k : Nat) :
    ∀ m ∈ _base_recommendations r, m ≠ targetMsg cat k := by
  intro m hm heq
  have hP : m.head? = some 'P' := by
    rw [heq]
    rfl
  unfold _base_recommendations at hm
  split at hm
  · rcases List.mem_cons.mp hm with rfl | hm2
    · exact absurd hP (by decide)
    · rcases List.mem_cons.mp hm2 with rfl | hm3
      · exact absurd hP (by decide)
      · exact absurd hm3 (List.not_mem_nil m)
  · split at hm
    · rcases List.mem_cons.mp hm with rfl | hm2
      · exact absurd hP (by decide)
      · exact absurd hm2 (List.not_mem_nil m)
    · exact absurd hm (List.not_mem_nil m)

/-! ## Claim C8 -/

/-- C8: whenever an execution has at least one failed item, the overall
recommendations are exactly the threshold messages followed by one targeted
message (none of the threshold messages has its form) naming a category
`cat` and its failure count `k`, where `k` is the number of failed items of
`cat`, positive, maximal among all categories, and — among the categories
attaining `k` — `cat` is the one whose first failed item occurs earliest in
`failed_items_details` order (Python's `max` keeps the first maximal entry
of the insertion-ordered dict). -/
theorem c8_worst_category (c : Checklist) (doc : Str) (ctx : Meta) (mode : ValidationMode)
    (h : (execute_core c doc ctx mode).failed_items ≠ 0) :
    ∃ cat k,
      (execute_core c doc ctx mode).recommendations
        = _base_recommendations (execute_core c doc ctx mode) ++ [targetMsg cat k]
      ∧ k = (execute_core c doc ctx mode).failed_items_details.countP
            (fun d => d.category == cat)
      ∧ 0 < k
      ∧ (∀ c2 : Str, (execute_core c doc ctx mode).failed_items_details.countP
            (fun d => d.category == c2) ≤ k)
      ∧ (∀ c2 : Str, (execute_core c doc ctx mode).failed_items_details.countP
              (fun d => d.category == c2) = k →
            firstIndex cat ((execute_core c doc ctx mode).failed_items_details.map
                (fun d => d.category))
              ≤ firstIndex c2 ((execute_core c doc ctx mode).failed_items_details.map
                (fun d => d.category)))
      ∧ (∀ m ∈ _base_recommendations (execute_core c doc ctx mode),
          m ≠ targetMsg cat k) := by
  have hlen := exec_details_length c doc ctx mode
  have hdne : (execute_core c doc ctx mode).failed_items_details ≠ [] := by
    intro hn
    rw [hn] at hlen
    simp at hlen
    exact h hlen.symm
  obtain ⟨d0, ds, hds⟩ : ∃ d0 ds,
      (execute_core c doc ctx mode).failed_items_details = d0 :: ds := by
    cases hd : (execute_core c doc ctx mode).failed_items_details with
    | nil => exact absurd hd hdne
    | cons a l => exact ⟨a, l, rfl⟩
  have hcne : catCounts (execute_core c doc ctx mode).failed_items_details ≠ [] := by
    intro hnil
    unfold catCounts at hnil
    have hfs := List.map_eq_nil.mp hnil
    have hm : d0.category ∈ firstSeen
        ((execute_core c doc ctx mode).failed_items_details.map (fun d => d.category)) := by
      apply mem_firstSeen.mpr
      rw [hds]
      exact List.mem_map_of_mem _ (List.mem_cons_self _ _)
    rw [hfs] at hm
    exact List.not_mem_nil _ hm
  obtain ⟨ck, hck⟩ : ∃ ck,
      pyMaxSnd (catCounts (execute_core c doc ctx mode).failed_items_details) = some ck := by
    cases hcc : catCounts (execute_core c doc ctx mode).failed_items_details with
    | nil => exact absurd hcc hcne
    | cons x xs => exact ⟨_, rfl⟩
  obtain ⟨cat, k⟩ := ck
  obtain ⟨pre, post, hsplit, hpre, hall⟩ := pyMaxSnd_spec hck
  have hbc := buildCategories_spec (execute_core c doc ctx mode).failed_items_details
  have hrec : (execute_core c doc ctx mode).recommendations
      = _base_recommendations (execute_core c doc ctx mode) ++ [targetMsg cat k] := by
    rw [exec_recommendations_eq]
    unfold _generate_recommendations
    rw [hbc, hck]
  have hmemck : (cat, k)
      ∈ catCounts (execute_core c doc ctx mode).failed_items_details := by
    rw [hsplit]
    exact List.mem_append_right _ (List.mem_cons_self _ _)
  have hmemck' := hmemck
  unfold catCounts at hmemck'
  obtain ⟨c0, hc0, heq0⟩ := List.mem_map.mp hmemck'
  have hc0cat : c0 = cat := congrArg Prod.fst heq0
  have hkcnt : k = (execute_core c doc ctx mode).failed_items_details.countP
      (fun d => d.category == cat) := by
    have hsnd := congrArg Prod.snd heq0
    rw [hc0cat] at hsnd
    exact hsnd.symm
  have hcatmem : cat ∈ (execute_core c doc ctx mode).failed_items_details.map
      (fun d => d.category) := by
    rw [← hc0cat]
    exact mem_firstSeen.mp hc0
  have hkpos : 0 < k := by
    rw [hkcnt]
    apply List.countP_pos.mpr
    obtain ⟨d1, hd1, hd1c⟩ := List.mem_map.mp hcatmem
    exact ⟨d1, hd1, by simp [hd1c]⟩
  have hmax : ∀ c2 : Str, (execute_core c doc ctx mode).failed_items_details.countP
      (fun d => d.category == c2) ≤ k := by
    intro c2
    by_cases hz : (execute_core c doc ctx mode).failed_items_details.countP
        (fun d => d.category == c2) = 0
    · omega
    · have hc2mem : c2 ∈ firstSeen
          ((execute_core c doc ctx mode).failed_items_details.map (fun d => d.category)) := by
        apply mem_firstSeen.mpr
        obtain ⟨a, ha, hpa⟩ := List.countP_pos.mp (Nat.pos_of_ne_zero hz)
        have hac : a.category = c2 := by simpa using hpa
        rw [← hac]
        exact List.mem_map_of_mem _ ha
      have hin : (c2, (execute_core c doc ctx mode).failed_items_details.countP
          (fun d => d.category == c2))
          ∈ catCounts (execute_core c doc ctx mode).failed_items_details := by
        unfold catCounts
        exact List.mem_map_of_mem _ hc2mem
      exact hall _ hin
  refine ⟨cat, k, hrec, hkcnt, hkpos, hmax, ?_, base_ne_target _ cat k⟩
  intro c2 hkc2
  by_cases hcc2 : c2 = cat
  · rw [hcc2]
  · have hc2mem : c2 ∈ firstSeen
        ((execute_core c doc ctx mode).failed_items_details.map (fun d => d.category)) := by
      apply mem_firstSeen.mpr
      have hzpos : 0 < (execute_core c doc ctx mode).failed_items_details.countP
          (fun d => d.category == c2) := by
        rw [hkc2]
        exact hkpos
      obtain ⟨a, ha, hpa⟩ := List.countP_pos.mp hzpos
      have hac : a.category = c2 := by simpa using hpa
      rw [← hac]
      exact List.mem_map_of_mem _ ha
    have hc2in : (c2, k)
        ∈ catCounts (execute_core c doc ctx mode).failed_items_details := by
      unfold catCounts
      rw [← hkc2]
      exact List.mem_map_of_mem _ hc2mem
    rw [hsplit] at hc2in
    rcases List.mem_append.mp hc2in with hin | hin
    · exact absurd (hpre _ hin) (Nat.lt_irrefl k)
    · rcases List.mem_cons.mp hin with heqq | hin2
      · exact absurd (congrArg Prod.fst heqq) hcc2
      · have hfst := congrArg (List.map Prod.fst) hsplit
        unfold catCounts at hfst
        rw [List.map_map] at hfst
        have hid : ((fun p : Str × Nat => p.1)
            ∘ fun c' => (c', (execute_core c doc ctx mode).failed_items_details.countP
                (fun d => d.category == c'))) = id := rfl
        rw [hid, List.map_id, List.map_append, List.map_cons] at hfst
        have hsort := firstSeen_sorted
          ((execute_core c doc ctx mode).failed_items_details.map (fun d => d.category))
        rw [hfst, List.pairwise_append] at hsort
        obtain ⟨_, hsort2, _⟩ := hsort
        rw [List.pairwise_cons] at hsort2
        have hlt := hsort2.1 c2 (by
          have := List.mem_map_of_mem Prod.fst hin2
          simpa using this)
        exact Nat.le_of_lt hlt

/-- C8 witness: a one-section checklist whose single item fails against a
short document; the targeted message names that section. -/
theorem c8_witness :
    ∃ cat k,
      (execute_core (_parse_checklist_content (str "## Planning\n- [ ] Define project scope") (str "pm")) (str "short doc") [] ValidationMode.standard).recommendations
        = _base_recommendations (execute_core (_parse_checklist_content (str "## Planning\n- [ ] Define project scope") (str "pm")) (str "short doc") [] ValidationMode.standard) ++ [targetMsg cat k]
      ∧ k = (execute_core (_parse_checklist_content (str "## Planning\n- [ ] Define project scope") (str "pm")) (str "short doc") [] ValidationMode.standard).failed_items_details.countP
            (fun d => d.category == cat)
      ∧ 0 < k
      ∧ (∀ c2 : Str, (execute_core (_parse_checklist_content (str "## Planning\n- [ ] Define project scope") (str "pm")) (str "short doc") [] ValidationMode.standard).failed_items_details.countP
            (fun d => d.category == c2) ≤ k)
      ∧ (∀ c2 : Str, (execute_core (_parse_checklist_content (str "## Planning\n- [ ] Define project scope") (str "pm")) (str "short doc") [] ValidationMode.standard).failed_items_details.countP
              (fun d => d.category == c2) = k →
            firstIndex cat ((execute_core (_parse_checklist_content (str "## Planning\n- [ ] Define project scope") (str "pm")) (str "short doc") [] ValidationMode.standard).failed_items_details.map
                (fun d => d.category))
              ≤ firstIndex c2 ((execute_core (_parse_checklist_content (str "## Planning\n- [ ] Define project scope") (str "pm")) (str "short doc") [] ValidationMode.standard).failed_items_details.map
                (fun d => d.category)))
      ∧ (∀ m ∈ _base_recommendations (execute_core (_parse_checklist_content (str "## Planning\n- [ ] Define project scope") (str "pm")) (str "short doc") [] ValidationMode.standard),
          m ≠ targetMsg cat k) :=
  c8_worst_category
    (_parse_checklist_content (str "## Planning\n- [ ] Define project scope") (str "pm"))
    (str "short doc") [] ValidationMode.standard (by decide)
